import Mathlib

/-!
Verification of the jptext-extract core: the text normalizer
(`pdf_processing.filter_non_japanese`) and the reading-keyed deduplicator
(`tokenizer.tokenize_and_deduplicate`, `tokenizer._register_surface`).

Strings are embedded as lists of Unicode code points (`Str`).  The external
morphological analyzer (SudachiPy) is not part of the repository; as in the
repository's own tests, it is modelled as a function from a text to a list
of `Morpheme` records and passed as a parameter.  Unicode NFKC normalization
is likewise external (Python's `unicodedata`); the normalizer is therefore
parameterized by the normalization function, and `nfkcModel` below is an
executable model of the fragment of NFKC that interacts with the permitted
Japanese character ranges.
-/

set_option maxRecDepth 8000

namespace JptextExtract

/-- A Python string, embedded as its list of Unicode code points. -/
abbrev Str := List Nat

/-- Characters counted as whitespace by Python's `str.isspace`, `str.strip`
and the regex class `\s` (for `str` patterns): the ASCII whitespace and
separator controls together with the Unicode space separators. -/
def isPySpace (c : Nat) : Bool :=
  c == 0x9 || c == 0xA || c == 0xB || c == 0xC || c == 0xD ||
  (0x1C ≤ c && c ≤ 0x1F) || c == 0x20 || c == 0x85 || c == 0xA0 ||
  c == 0x1680 || (0x2000 ≤ c && c ≤ 0x200A) || c == 0x2028 || c == 0x2029 ||
  c == 0x202F || c == 0x205F || c == 0x3000

/-- Python `str.strip()`: drop leading and trailing whitespace. -/
def stripStr (s : Str) : Str :=
  ((s.dropWhile isPySpace).reverse.dropWhile isPySpace).reverse

/-- Python `re.sub(r"\s+", " ", s)`: replace every maximal nonempty run of
whitespace characters by a single ordinary space (the space is emitted at the
last character of the run; the run as a whole becomes one space). -/
def collapseSpaces : Str → Str
  | [] => []
  | [c] => if isPySpace c then [0x20] else [c]
  | c :: d :: rest =>
    if isPySpace c then
      if isPySpace d then collapseSpaces (d :: rest)
      else 0x20 :: collapseSpaces (d :: rest)
    else c :: collapseSpaces (d :: rest)

/-- Membership test against `_JAPANESE_RANGES` of `pdf_processing.py`:
the iteration over the eight inclusive ranges with early `break` is the
disjunction of the eight range checks. -/
def in_japanese_ranges (c : Nat) : Bool :=
  (0x3000 ≤ c && c ≤ 0x303F) || (0x3040 ≤ c && c ≤ 0x309F) ||
  (0x30A0 ≤ c && c ≤ 0x30FF) || (0x31F0 ≤ c && c ≤ 0x31FF) ||
  (0x3400 ≤ c && c ≤ 0x4DBF) || (0x4E00 ≤ c && c ≤ 0x9FFF) ||
  (0xFF01 ≤ c && c ≤ 0xFF5E) || (0xFF66 ≤ c && c ≤ 0xFF9F)

/-- The character-filtering loop of `filter_non_japanese`: whitespace is kept
as an ordinary space, characters in the permitted ranges are kept, everything
else is dropped. -/
def keepJapanese : Str → Str
  | [] => []
  | c :: rest =>
    if isPySpace c then 0x20 :: keepJapanese rest
    else if in_japanese_ranges c then c :: keepJapanese rest
    else keepJapanese rest

/-- Fullwidth-to-halfwidth targets of the NFKC compatibility decompositions of
the halfwidth katakana block U+FF66..U+FF9D, indexed by the offset from
U+FF66 (per UnicodeData: ｦ→ヲ, ｧ..ｯ→small kana, ｰ→ー, ｱ..ﾝ→ア..ン). -/
def halfwidthKatakana (i : Nat) : Nat :=
  [0x30F2, 0x30A1, 0x30A3, 0x30A5, 0x30A7, 0x30A9, 0x30E3, 0x30E5, 0x30E7, 0x30C3,
   0x30FC, 0x30A2, 0x30A4, 0x30A6, 0x30A8, 0x30AA, 0x30AB, 0x30AD, 0x30AF, 0x30B1,
   0x30B3, 0x30B5, 0x30B7, 0x30B9, 0x30BB, 0x30BD, 0x30BF, 0x30C1, 0x30C4, 0x30C6,
   0x30C8, 0x30CA, 0x30CB, 0x30CC, 0x30CD, 0x30CE, 0x30CF, 0x30D2, 0x30D5, 0x30D8,
   0x30DB, 0x30DE, 0x30DF, 0x30E0, 0x30E1, 0x30E2, 0x30E4, 0x30E6, 0x30E8, 0x30E9,
   0x30EA, 0x30EB, 0x30EC, 0x30ED, 0x30EF, 0x30F3].getD i 0x30F2

/-- NFKC decomposition step of the model: the compatibility decompositions
(per UnicodeData) of the code points that interact with the permitted
Japanese ranges — ideographic space, the postal/Hangzhou signs, the spacing
kana sound marks, the fullwidth ASCII block and the halfwidth kana block.
All other code points are treated as decomposition-stable. -/
def decomp (c : Nat) : List Nat :=
  if c == 0x3000 then [0x20]
  else if c == 0x3036 then [0x3012]
  else if c == 0x3038 then [0x5341]
  else if c == 0x3039 then [0x5344]
  else if c == 0x303A then [0x5345]
  else if c == 0x309B then [0x20, 0x3099]
  else if c == 0x309C then [0x20, 0x309A]
  else if 0xFF01 ≤ c && c ≤ 0xFF5E then [c - 0xFEE0]
  else if c == 0xFF61 then [0x3002]
  else if c == 0xFF62 then [0x300C]
  else if c == 0xFF63 then [0x300D]
  else if c == 0xFF64 then [0x3001]
  else if c == 0xFF65 then [0x30FB]
  else if 0xFF66 ≤ c && c ≤ 0xFF9D then [halfwidthKatakana (c - 0xFF66)]
  else if c == 0xFF9E then [0x3099]
  else if c == 0xFF9F then [0x309A]
  else [c]

/-- Kana base characters whose voiced form (canonical composition with
U+3099) is the next code point. -/
def voicedBase : List Nat :=
  [0x304B, 0x304D, 0x304F, 0x3051, 0x3053, 0x3055, 0x3057, 0x3059, 0x305B, 0x305D,
   0x305F, 0x3061, 0x3064, 0x3066, 0x3068, 0x306F, 0x3072, 0x3075, 0x3078, 0x307B,
   0x30AB, 0x30AD, 0x30AF, 0x30B1, 0x30B3, 0x30B5, 0x30B7, 0x30B9, 0x30BB, 0x30BD,
   0x30BF, 0x30C1, 0x30C4, 0x30C6, 0x30C8, 0x30CF, 0x30D2, 0x30D5, 0x30D8, 0x30DB,
   0x309D, 0x30FD]

/-- Canonical composition of a kana base with a combining (semi-)voiced sound
mark, per the Unicode canonical composition pairs; `none` for every other
pair of adjacent characters. -/
def kanaComposite (a b : Nat) : Option Nat :=
  if b == 0x3099 then
    if a == 0x3046 then some 0x3094
    else if a == 0x30A6 then some 0x30F4
    else if a == 0x30EF then some 0x30F7
    else if a == 0x30F0 then some 0x30F8
    else if a == 0x30F1 then some 0x30F9
    else if a == 0x30F2 then some 0x30FA
    else if voicedBase.contains a then some (a + 1)
    else none
  else if b == 0x309A then
    if a == 0x306F || a == 0x3072 || a == 0x3075 || a == 0x3078 || a == 0x307B then
      some (a + 2)
    else if a == 0x30CF || a == 0x30D2 || a == 0x30D5 || a == 0x30D8 || a == 0x30DB then
      some (a + 2)
    else none
  else none

/-- Canonical combining class (per UnicodeData) of the code points that the
normalizer's filter can observe: the combining kana voiced sound marks
U+3099/U+309A (class 8) and the ideographic and Hangul tone marks
U+302A–U+302F (classes 218–232), the only non-starters inside the permitted
ranges.  Combining marks outside the permitted ranges are dropped by the
filter whatever their relative order, so the model treats them as class 0. -/
def ccc (c : Nat) : Nat :=
  if c == 0x3099 || c == 0x309A then 8
  else if c == 0x302A then 218
  else if c == 0x302B then 228
  else if c == 0x302C then 232
  else if c == 0x302D then 222
  else if c == 0x302E || c == 0x302F then 224
  else 0

/-- Stable insertion of a character into a sorted run of non-starters: the
character moves past every character of combining class at most its own, so
equal classes keep their original order, as in the Unicode canonical
ordering algorithm. -/
def insertByCcc (a : Nat) : Str → Str
  | [] => [a]
  | b :: rest => if ccc b ≤ ccc a then b :: insertByCcc a rest else a :: b :: rest

/-- Canonical reordering pass: starters pass through unchanged and each
maximal run of non-starters is stably sorted by combining class, carrying
the pending sorted run in the accumulator. -/
def reorderAux (run : Str) : Str → Str
  | [] => run
  | c :: rest =>
    if ccc c == 0 then run ++ c :: reorderAux [] rest
    else reorderAux (insertByCcc c run) rest

/-- The Unicode canonical ordering algorithm on the model's combining
classes. -/
def canonicalReorder (s : Str) : Str := reorderAux [] s

/-- Canonical composition pass of the model, walking the string with the
current head character in hand: compose each adjacent (base, combining sound
mark) pair.  A character standing between a base and a mark blocks the
composition, as in the Unicode composition algorithm. -/
def composeAux (a : Nat) : Str → Str
  | [] => [a]
  | b :: rest =>
    match kanaComposite a b with
    | some c => composeAux c rest
    | none => a :: composeAux b rest

/-- Canonical composition pass of the model: compose each adjacent
(base, combining sound mark) pair. -/
def composeKana : Str → Str
  | [] => []
  | a :: rest => composeAux a rest

/-- Executable model of Python's `unicodedata.normalize("NFKC", s)` restricted
to the fragment that the normalizer's character filter can observe:
compatibility decomposition (`decomp`), canonical reordering of the
non-starters by combining class (`canonicalReorder`), and canonical
composition of kana with combining sound marks (`composeKana`).  Combining
marks outside the permitted ranges carry class 0 in the model: the filter
drops them in any order and they take part in no composition producing a
permitted character, so this is faithful for every string the theorems
below evaluate the model on. -/
def nfkcModel (s : Str) : Str := composeKana (canonicalReorder (s.bind decomp))

/-- `pdf_processing.filter_non_japanese`, parameterized by the external
Unicode normalization function: NFKC-normalize, map ideographic space to
space, keep whitespace (as plain spaces) and the permitted Japanese ranges,
collapse whitespace runs, strip. -/
def filter_non_japanese (nfkc : Str → Str) (text : Str) : Str :=
  if text.isEmpty then []
  else
    stripStr (collapseSpaces (keepJapanese
      ((nfkc text).map (fun c => if c == 0x3000 then 0x20 else c))))

/-- The twelve code points that are, or NFKC-decompose to, combining marks
inside the permitted ranges: the combining kana sound marks U+3099/U+309A,
their spacing and halfwidth forms U+309B/U+309C/U+FF9E/U+FF9F, and the
ideographic and Hangul tone marks U+302A–U+302F. -/
def soundMarks : List Nat :=
  [0x3099, 0x309A, 0x309B, 0x309C, 0xFF9E, 0xFF9F,
   0x302A, 0x302B, 0x302C, 0x302D, 0x302E, 0x302F]

/-- ASCII letters A-Z and a-z. -/
def isAsciiLetter (c : Nat) : Bool :=
  (0x41 ≤ c && c ≤ 0x5A) || (0x61 ≤ c && c ≤ 0x7A)

/-! ## The reading-keyed deduplicator (`tokenizer.py`) -/

/-- The major part-of-speech tag 記号 (symbol), code points of the string
compared against `pos[0]` at line 94 of `tokenizer.py`. -/
def kigou : Str := [0x8A18, 0x53F7]

/-- The major part-of-speech tag 名詞 (noun), code points of the string
compared against `info["pos_major"]` at line 119 of `tokenizer.py`. -/
def meishi : Str := [0x540D, 0x8A5E]

/-- A morpheme as supplied by the external analyzer: literal surface form,
reading form (empty when the analyzer supplies none — `reading_form() or ""`),
dictionary form (empty when absent) and the first element of the
part-of-speech tag tuple. -/
structure Morpheme where
  surface : Str
  readingForm : Str
  dictionaryForm : Str
  posMajor : Str
deriving DecidableEq, Repr

/-- The per-morpheme record appended to `token_infos` (lines 110–117). -/
structure TokenInfo where
  reading : Str
  surface : Str
  originalSurface : Str
  posMajor : Str
deriving DecidableEq, Repr

/-- One value of the `by_reading` dictionary: the insertion-ordered set of
surviving surfaces (the keys of the `OrderedDict`) and the `has_kanji` flag. -/
structure Entry where
  order : List Str
  hasKanji : Bool
deriving DecidableEq, Repr

/-- `tokenizer._katakana_to_hiragana`: map each katakana code point in
U+30A1..U+30F6 down by 0x60, leave everything else unchanged. -/
def katakana_to_hiragana : Str → Str
  | [] => []
  | c :: rest =>
    (if 0x30A1 ≤ c ∧ c ≤ 0x30F6 then c - 0x60 else c) :: katakana_to_hiragana rest

/-- `tokenizer._contains_kanji`: some code point lies in U+4E00..U+9FFF. -/
def contains_kanji (s : Str) : Bool :=
  s.any (fun c => 0x4E00 ≤ c && c ≤ 0x9FFF)

/-- Look up the entry registered for a reading in the `by_reading` dictionary
(embedded as an insertion-ordered association list); a reading not in the
dictionary is mapped to the fresh entry `{order: {}, has_kanji: False}` that
`setdefault` would create for it. -/
def entryFor : List (Str × Entry) → Str → Entry
  | [], _ => ⟨[], false⟩
  | (k, e) :: rest, r => if k = r then e else entryFor rest r

/-- The mutation `_register_surface` performs on the entry of the given
reading (lines 51–66 of `tokenizer.py`): an already-present surface is kept
as is; a kanji surface clears a kana-only group and is appended; a kana
surface is dropped when the group holds kanji and appended otherwise. -/
def updateEntry (e : Entry) (surface : Str) : Entry :=
  if surface ∈ e.order then e
  else if contains_kanji surface then
    ⟨(if e.hasKanji then e.order else []) ++ [surface], true⟩
  else if e.hasKanji then e
  else ⟨e.order ++ [surface], e.hasKanji⟩

/-- Apply `updateEntry` to the entry stored for `r`, inserting the updated
fresh entry at the end when `r` is absent — the effect of
`by_reading.setdefault(reading, ...)` followed by the in-place mutation. -/
def registerInto : List (Str × Entry) → Str → Str → List (Str × Entry)
  | [], r, s => [(r, updateEntry ⟨[], false⟩ s)]
  | (k, e) :: rest, r, s =>
    if k = r then (k, updateEntry e s) :: rest
    else (k, e) :: registerInto rest r s

/-- `tokenizer._register_surface`: ignore an empty reading or surface,
otherwise register the surface under the reading. -/
def register_surface (m : List (Str × Entry)) (reading surface : Str) :
    List (Str × Entry) :=
  if reading = [] ∨ surface = [] then m else registerInto m reading surface

/-- The reading key of a morpheme (lines 97–98): katakana folded to hiragana,
then stripped. -/
def readingKey (mo : Morpheme) : Str :=
  stripStr (katakana_to_hiragana mo.readingForm)

/-- The canonical surface of a morpheme (lines 102–106): the dictionary form
(falling back to the literal surface when empty) if it contains a kanji,
otherwise the literal surface. -/
def canonSurface (mo : Morpheme) : Str :=
  let canonical := if mo.dictionaryForm.isEmpty then mo.surface else mo.dictionaryForm
  if contains_kanji canonical then canonical else mo.surface

/-- The body of the per-morpheme loop (lines 92–117): skip symbol-class
morphemes and morphemes with an empty reading key; otherwise register the
canonical surface under the reading key and record the token info. -/
def processMorpheme (st : List (Str × Entry) × List TokenInfo) (mo : Morpheme) :
    List (Str × Entry) × List TokenInfo :=
  if mo.posMajor = kigou then st
  else if readingKey mo = [] then st
  else
    (register_surface st.1 (readingKey mo) (canonSurface mo),
     st.2 ++ [⟨readingKey mo, canonSurface mo, mo.surface, mo.posMajor⟩])

/-- Processing of one input unit (lines 90–122): fold the morpheme loop over
the analyzer's output, then register the concatenated phrase when at least
two morphemes survived and at least one of them is not a noun. -/
def processUnit (br : List (Str × Entry)) (morphemes : List Morpheme) :
    List (Str × Entry) :=
  let p := morphemes.foldl processMorpheme (br, [])
  if 2 ≤ p.2.length ∧ ∃ i ∈ p.2, ¬ i.posMajor = meishi then
    register_surface p.1 (stripStr ((p.2.map TokenInfo.reading).join))
      (stripStr ((p.2.map TokenInfo.originalSurface).join))
  else p.1

/-- The `by_reading` state after the main loop of `tokenize_and_deduplicate`
(lines 84–122): fold over the input units, skipping empty ones. -/
def dedupState (tok : Str → List Morpheme) (texts : List Str) :
    List (Str × Entry) :=
  texts.foldl (fun br text => if text.isEmpty then br else processUnit br (tok text)) []

/-- Non-strict lexicographic code-point order on strings — the order Python's
`<=` and `sorted` use on `str`. -/
def lexLe : Str → Str → Bool
  | [], _ => true
  | _ :: _, [] => false
  | a :: as, b :: bs => if a < b then true else if b < a then false else lexLe as bs

/-- Strict lexicographic code-point order on strings. -/
def lexLt : Str → Str → Bool
  | [], [] => false
  | [], _ :: _ => true
  | _ :: _, [] => false
  | a :: as, b :: bs => if a < b then true else if b < a then false else lexLt as bs

/-- The proposition form of `lexLe`, for use with Mathlib's sorting. -/
def LexLe (a b : Str) : Prop := lexLe a b = true

instance : DecidableRel LexLe := fun a b => decEq (lexLe a b) true

/-- Finalization (lines 124–129): iterate the readings in sorted order and
emit one `(reading, surface)` pair per surviving surface, in the surfaces'
first-insertion order.  Python's `sorted` is embedded as an insertion sort
with respect to the code-point order; on the distinct keys of the dictionary
every sort agrees. -/
def finalize (br : List (Str × Entry)) : List (Str × Str) :=
  (List.insertionSort LexLe (br.map Prod.fst)).bind
    (fun r => (entryFor br r).order.map (fun s => (r, s)))

/-- `tokenizer.tokenize_and_deduplicate`, parameterized by the external
analyzer `tok` (the repository's tests substitute exactly this dependency). -/
def tokenize_and_deduplicate (tok : Str → List Morpheme) (texts : List Str) :
    List (Str × Str) :=
  finalize (dedupState tok texts)

/-- The same pipeline with a fallible analyzer, embedding Python exception
propagation in the `Except` monad: the source contains no `try`/`except`, so
an analyzer failure aborts the whole batch. -/
def tokenizeAndDeduplicateE {ε : Type} (tok : Str → Except ε (List Morpheme))
    (texts : List Str) : Except ε (List (Str × Str)) :=
  (texts.foldlM (fun br (text : Str) =>
      if text.isEmpty then pure br else (tok text).map (processUnit br)) []).map
    finalize

/-! ## Specification-side definitions used to state the claims -/

/-- The morphemes of a unit that survive step 3a–3b: not symbol-class and
with a nonempty reading key. -/
def survivors (ms : List Morpheme) : List Morpheme :=
  ms.filter (fun mo => !(decide (mo.posMajor = kigou)) && !(decide (readingKey mo = [])))

/-- The token-info record built for a surviving morpheme (lines 110–117). -/
def toInfo (mo : Morpheme) : TokenInfo :=
  ⟨readingKey mo, canonSurface mo, mo.surface, mo.posMajor⟩

/-- Register each surviving morpheme of a unit, in order — the declarative
description of the morpheme-level registrations of one unit. -/
def registerMorphemes (br : List (Str × Entry)) (ms : List Morpheme) :
    List (Str × Entry) :=
  (survivors ms).foldl (fun b mo => register_surface b (readingKey mo) (canonSurface mo)) br

/-- The phrase reading of a unit: the in-order concatenation of the
survivors' reading keys, trimmed. -/
def phraseReading (ms : List Morpheme) : Str :=
  stripStr (((survivors ms).map readingKey).join)

/-- The phrase surface of a unit: the in-order concatenation of the
survivors' literal surfaces, trimmed. -/
def phraseSurface (ms : List Morpheme) : Str :=
  stripStr (((survivors ms).map Morpheme.surface).join)

/-- First-seen-order deduplication by exact string equality. -/
def insertionDedup (ss : List Str) : List Str :=
  ss.foldl (fun acc s => if s ∈ acc then acc else acc ++ [s]) []

/-- Register a sequence of surfaces under one fixed reading, starting from
the empty dictionary. -/
def registerSeq (r : Str) (ss : List Str) : List (Str × Entry) :=
  ss.foldl (fun m s => register_surface m r s) []

/-- The group invariant: every surviving surface is nonempty and agrees with
the group's kanji flag (kanji-only groups hold only kanji surfaces, kana-only
groups only kana surfaces). -/
def GoodEntry (e : Entry) : Prop :=
  ∀ t ∈ e.order, contains_kanji t = e.hasKanji ∧ t ≠ []

/-- The dictionary invariant: every key is a nonempty reading and every
entry satisfies the group invariant. -/
def GoodState (m : List (Str × Entry)) : Prop :=
  ∀ p ∈ m, p.1 ≠ [] ∧ GoodEntry p.2

instance : DecidablePred GoodEntry := fun e =>
  List.decidableBAll _ e.order

instance : DecidablePred GoodState := fun m =>
  List.decidableBAll _ m

/-! ## Registration lemmas -/

theorem entryFor_registerInto (m : List (Str × Entry)) (r s q : Str) :
    entryFor (registerInto m r s) q =
      if q = r then updateEntry (entryFor m r) s else entryFor m q := by
  induction m with
  | nil =>
    by_cases h : q = r
    · subst h; simp [registerInto, entryFor]
    · simp [registerInto, entryFor, h, Ne.symm h]
  | cons p rest ih =>
    obtain ⟨k, e⟩ := p
    by_cases hk : k = r
    · subst hk
      by_cases hq : q = k
      · subst hq; simp [registerInto, entryFor]
      · simp [registerInto, entryFor, hq, Ne.symm hq]
    · by_cases hq : q = k
      · subst hq
        simp [registerInto, entryFor, hk]
      · simp [registerInto, entryFor, hk, hq, Ne.symm hq, ih]

theorem entryFor_register_surface (m : List (Str × Entry)) (r s q : Str) :
    entryFor (register_surface m r s) q =
      if r ≠ [] ∧ s ≠ [] ∧ q = r then updateEntry (entryFor m r) s
      else entryFor m q := by
  unfold register_surface
  by_cases hr : r = []
  · simp [hr]
  · by_cases hs : s = []
    · simp [hr, hs]
    · simp [hr, hs, entryFor_registerInto]

theorem updateEntry_mem {e : Entry} {s : Str} (h : s ∈ e.order) :
    updateEntry e s = e := by
  simp [updateEntry, h]

theorem updateEntry_kanji {e : Entry} {s : Str} (hk : contains_kanji s = true)
    (hm : s ∉ e.order) :
    updateEntry e s = ⟨(if e.hasKanji then e.order else []) ++ [s], true⟩ := by
  simp [updateEntry, hm, hk]

theorem updateEntry_kana_of_hasKanji {e : Entry} {s : Str}
    (hk : contains_kanji s = false) (hh : e.hasKanji = true) :
    updateEntry e s = e := by
  by_cases hm : s ∈ e.order
  · exact updateEntry_mem hm
  · simp [updateEntry, hm, hk, hh]

theorem updateEntry_kana_of_kanaOnly {e : Entry} {s : Str}
    (hk : contains_kanji s = false) (hh : e.hasKanji = false) (hm : s ∉ e.order) :
    updateEntry e s = ⟨e.order ++ [s], false⟩ := by
  simp [updateEntry, hm, hk, hh]

theorem hasKanji_updateEntry {e : Entry} {s : Str} (hh : e.hasKanji = true) :
    (updateEntry e s).hasKanji = true := by
  unfold updateEntry
  split
  · exact hh
  · split
    · rfl
    · exact hh

theorem goodEntry_updateEntry {e : Entry} {s : Str} (hs : s ≠ [])
    (hg : GoodEntry e) : GoodEntry (updateEntry e s) := by
  by_cases hm : s ∈ e.order
  · rw [updateEntry_mem hm]; exact hg
  · by_cases hk : contains_kanji s = true
    · rw [updateEntry_kanji hk hm]
      intro t ht
      rcases List.mem_append.1 ht with h | h
      · by_cases hh : e.hasKanji = true
        · rw [if_pos hh] at h
          exact ⟨(hg t h).1.trans hh, (hg t h).2⟩
        · rw [if_neg hh] at h
          cases h
      · have hts : t = s := List.mem_singleton.1 h
        subst hts
        exact ⟨hk, hs⟩
    · have hk' : contains_kanji s = false := by
        simpa using hk
      by_cases hh : e.hasKanji = true
      · rw [updateEntry_kana_of_hasKanji hk' hh]; exact hg
      · have hh' : e.hasKanji = false := by
          simpa using hh
        rw [updateEntry_kana_of_kanaOnly hk' hh' hm]
        intro t ht
        rcases List.mem_append.1 ht with h | h
        · exact ⟨(hg t h).1.trans hh', (hg t h).2⟩
        · have hts : t = s := List.mem_singleton.1 h
          subst hts
          exact ⟨hk', hs⟩

theorem entryFor_eq_default_of_not_mem {m : List (Str × Entry)} {r : Str}
    (h : r ∉ m.map Prod.fst) : entryFor m r = ⟨[], false⟩ := by
  induction m with
  | nil => rfl
  | cons p rest ih =>
    obtain ⟨k, e⟩ := p
    simp only [List.map_cons, List.mem_cons] at h
    push_neg at h
    simp [entryFor, Ne.symm h.1, ih h.2]

theorem goodEntry_entryFor {m : List (Str × Entry)} {r : Str}
    (hg : GoodState m) : GoodEntry (entryFor m r) := by
  induction m with
  | nil => intro t ht; simp [entryFor] at ht
  | cons p rest ih =>
    obtain ⟨k, e⟩ := p
    simp only [entryFor]
    split
    · exact (hg (k, e) (List.mem_cons_self _ _)).2
    · exact ih (fun q hq => hg q (List.mem_cons_of_mem _ hq))

theorem goodState_registerInto {m : List (Str × Entry)} {r s : Str}
    (hr : r ≠ []) (hs : s ≠ []) (hg : GoodState m) :
    GoodState (registerInto m r s) := by
  induction m with
  | nil =>
    intro p hp
    simp only [registerInto, List.mem_singleton] at hp
    subst hp
    exact ⟨hr, goodEntry_updateEntry hs (fun t ht => by cases ht)⟩
  | cons q rest ih =>
    obtain ⟨k, e⟩ := q
    unfold registerInto
    split
    · intro p hp
      rcases List.mem_cons.1 hp with h | h
      · subst h
        exact ⟨(hg (k, e) (List.mem_cons_self _ _)).1,
          goodEntry_updateEntry hs (hg (k, e) (List.mem_cons_self _ _)).2⟩
      · exact hg _ (List.mem_cons_of_mem _ h)
    · intro p hp
      rcases List.mem_cons.1 hp with h | h
      · subst h
        exact hg (k, e) (List.mem_cons_self _ _)
      · exact ih (fun q hq => hg q (List.mem_cons_of_mem _ hq)) _ h

theorem goodState_register_surface {m : List (Str × Entry)} {r s : Str}
    (hg : GoodState m) : GoodState (register_surface m r s) := by
  unfold register_surface
  split
  · exact hg
  · rename_i h
    push_neg at h
    exact goodState_registerInto h.1 h.2 hg

theorem contains_kanji_ne_nil {s : Str} (hk : contains_kanji s = true) : s ≠ [] := by
  intro h
  subst h
  simp [contains_kanji] at hk

theorem registerInto_noop {m : List (Str × Entry)} {r s : Str}
    (h : updateEntry (entryFor m r) s = entryFor m r)
    (hmem : r ∈ m.map Prod.fst) : registerInto m r s = m := by
  induction m with
  | nil => cases hmem
  | cons q rest ih =>
    obtain ⟨k, e⟩ := q
    unfold registerInto
    split
    · rename_i hke
      rw [show entryFor ((k, e) :: rest) r = e from if_pos hke] at h
      rw [h]
    · rename_i hk
      simp only [List.map_cons, List.mem_cons] at hmem
      rcases hmem with hm | hm
      · exact absurd hm.symm hk
      · rw [show entryFor ((k, e) :: rest) r = entryFor rest r from if_neg hk] at h
        rw [ih h hm]

theorem register_kana_noop {m : List (Str × Entry)} {r s : Str}
    (hh : (entryFor m r).hasKanji = true) (hk : contains_kanji s = false) :
    register_surface m r s = m := by
  unfold register_surface
  split
  · rfl
  · have hmem : r ∈ m.map Prod.fst := by
      by_contra hab
      rw [entryFor_eq_default_of_not_mem hab] at hh
      cases hh
    exact registerInto_noop (updateEntry_kana_of_hasKanji hk hh) hmem

theorem hasKanji_after_kanji {m : List (Str × Entry)} {r s : Str}
    (hg : GoodState m) (hk : contains_kanji s = true) (hr : r ≠ []) :
    (entryFor (register_surface m r s) r).hasKanji = true := by
  rw [entryFor_register_surface, if_pos ⟨hr, contains_kanji_ne_nil hk, rfl⟩]
  by_cases hm : s ∈ (entryFor m r).order
  · rw [updateEntry_mem hm]
    exact ((goodEntry_entryFor hg s hm).1).symm.trans hk
  · rw [updateEntry_kanji hk hm]

theorem hasKanji_register_mono {m : List (Str × Entry)} {r s q : Str}
    (h : (entryFor m q).hasKanji = true) :
    (entryFor (register_surface m r s) q).hasKanji = true := by
  rw [entryFor_register_surface]
  split
  · rename_i hc
    obtain ⟨-, -, rfl⟩ := hc
    exact hasKanji_updateEntry h
  · exact h

theorem hasKanji_registerFold_mono {r q : Str} :
    ∀ (ss : List Str) (m : List (Str × Entry)),
      (entryFor m q).hasKanji = true →
      (entryFor (ss.foldl (fun m s => register_surface m r s) m) q).hasKanji = true := by
  intro ss
  induction ss with
  | nil => intro m h; exact h
  | cons s rest ih =>
    intro m h
    exact ih _ (hasKanji_register_mono h)

theorem goodState_registerFold {r : Str} :
    ∀ (ss : List Str) (m : List (Str × Entry)), GoodState m →
      GoodState (ss.foldl (fun m s => register_surface m r s) m) := by
  intro ss
  induction ss with
  | nil => intro m h; exact h
  | cons s rest ih =>
    intro m h
    exact ih _ (goodState_register_surface h)

theorem order_registerFold_kanji {r : Str} (hr : r ≠ []) :
    ∀ (ss : List Str) (m : List (Str × Entry)),
      (∀ s ∈ ss, contains_kanji s = true) →
      (entryFor m r).hasKanji = true →
      (entryFor (ss.foldl (fun m s => register_surface m r s) m) r).order =
        ss.foldl (fun acc s => if s ∈ acc then acc else acc ++ [s])
          (entryFor m r).order := by
  intro ss
  induction ss with
  | nil => intro m _ _; rfl
  | cons s rest ih =>
    intro m hall hh
    have hk : contains_kanji s = true := hall s (List.mem_cons_self _ _)
    have upd : ∀ (e : Entry), e.hasKanji = true →
        updateEntry e s = ⟨(if s ∈ e.order then e.order else e.order ++ [s]), true⟩ := by
      intro e hh2
      obtain ⟨o, b⟩ := e
      simp only at hh2
      subst hh2
      by_cases hm : s ∈ o
      · rw [updateEntry_mem hm, if_pos hm]
      · rw [updateEntry_kanji hk hm, if_neg hm, if_pos rfl]
    have step : entryFor (register_surface m r s) r =
        ⟨(if s ∈ (entryFor m r).order then (entryFor m r).order
          else (entryFor m r).order ++ [s]), true⟩ := by
      rw [entryFor_register_surface, if_pos ⟨hr, contains_kanji_ne_nil hk, rfl⟩,
        upd _ hh]
    simp only [List.foldl_cons]
    rw [ih _ (fun t ht => hall t (List.mem_cons_of_mem _ ht)) (by rw [step])]
    rw [step]

theorem goodState_nil : GoodState [] := fun p hp => by cases hp

theorem goodState_registerSeq {r : Str} {ss : List Str} :
    GoodState (registerSeq r ss) :=
  goodState_registerFold ss [] goodState_nil

theorem hasKanji_registerSeq_of_exists {r : Str} (hr : r ≠ []) :
    ∀ (ss : List Str) (m : List (Str × Entry)), GoodState m →
      (∃ s ∈ ss, contains_kanji s = true) →
      (entryFor (ss.foldl (fun m s => register_surface m r s) m) r).hasKanji = true := by
  intro ss
  induction ss with
  | nil => intro m _ h; simp at h
  | cons s rest ih =>
    intro m hg h
    simp only [List.foldl_cons]
    rcases List.mem_cons.1 h.choose_spec.1 with hc | hc
    · by_cases hk : contains_kanji s = true
      · exact hasKanji_registerFold_mono rest _ (hasKanji_after_kanji hg hk hr)
      · rcases h with ⟨t, ht, hkt⟩
        rcases List.mem_cons.1 ht with rfl | ht'
        · exact absurd hkt hk
        · exact ih _ (goodState_register_surface hg) ⟨t, ht', hkt⟩
    · by_cases hk : contains_kanji s = true
      · exact hasKanji_registerFold_mono rest _ (hasKanji_after_kanji hg hk hr)
      · rcases h with ⟨t, ht, hkt⟩
        rcases List.mem_cons.1 ht with rfl | ht'
        · exact absurd hkt hk
        · exact ih _ (goodState_register_surface hg) ⟨t, ht', hkt⟩

/-- C1: the ReadingGroup membership policy of `_register_surface`.
Registrations under one reading touch no other reading's group; once the
group holds a kanji surface, a purely-kana surface is rejected and the state
is unchanged; a kanji surface arriving at a group holding no kanji discards
all prior (kana) surfaces and switches the group to kanji-only; a sequence
of kanji homophones is retained in full, deduplicated by exact string
equality in first-seen order; and whenever any kanji surface was ever
registered for a reading, every surface surviving in that reading's group
contains a kanji — so no purely-kana surface survives, regardless of the
arrival order. -/
theorem c1_reading_group_policy :
    (∀ (m : List (Str × Entry)) (r s q : Str), q ≠ r →
        entryFor (register_surface m r s) q = entryFor m q)
    ∧ (∀ (m : List (Str × Entry)) (r s : Str),
        (entryFor m r).hasKanji = true → contains_kanji s = false →
        register_surface m r s = m)
    ∧ (∀ (m : List (Str × Entry)) (r s : Str), GoodState m → r ≠ [] →
        (entryFor m r).hasKanji = false → contains_kanji s = true →
        entryFor (register_surface m r s) r = ⟨[s], true⟩)
    ∧ (∀ (r : Str) (ss : List Str), r ≠ [] →
        (∀ s ∈ ss, contains_kanji s = true) →
        (entryFor (registerSeq r ss) r).order = insertionDedup ss)
    ∧ (∀ (r : Str) (ss : List Str), r ≠ [] →
        (∃ s ∈ ss, contains_kanji s = true) →
        ∀ t ∈ (entryFor (registerSeq r ss) r).order, contains_kanji t = true) := by
  refine ⟨?_, ?_, ?_, ?_, ?_⟩
  · intro m r s q hq
    rw [entryFor_register_surface]
    exact if_neg (fun hc => hq hc.2.2)
  · intro m r s hh hk
    exact register_kana_noop hh hk
  · intro m r s hg hr hh hk
    rw [entryFor_register_surface, if_pos ⟨hr, contains_kanji_ne_nil hk, rfl⟩]
    have hm : s ∉ (entryFor m r).order := by
      intro hmem
      have hc := (goodEntry_entryFor hg s hmem).1
      rw [hh, hk] at hc
      cases hc
    rw [updateEntry_kanji hk hm]
    simp [hh]
  · intro r ss hr hall
    cases ss with
    | nil => rfl
    | cons s rest =>
      have hk : contains_kanji s = true := hall s (List.mem_cons_self _ _)
      have h1 : entryFor (register_surface [] r s) r = ⟨[s], true⟩ := by
        rw [entryFor_register_surface, if_pos ⟨hr, contains_kanji_ne_nil hk, rfl⟩]
        have : s ∉ (entryFor ([] : List (Str × Entry)) r).order := by
          intro h; cases h
        rw [updateEntry_kanji hk this]
        simp [entryFor]
      show (entryFor ((s :: rest).foldl (fun m t => register_surface m r t) []) r).order = _
      simp only [List.foldl_cons]
      rw [order_registerFold_kanji hr rest _
        (fun t ht => hall t (List.mem_cons_of_mem _ ht)) (by rw [h1])]
      rw [h1]
      show rest.foldl _ [s] = insertionDedup (s :: rest)
      unfold insertionDedup
      simp [List.foldl_cons]
  · intro r ss hr hex t ht
    have hh : (entryFor (registerSeq r ss) r).hasKanji = true :=
      hasKanji_registerSeq_of_exists hr ss [] goodState_nil hex
    exact ((goodEntry_entryFor goodState_registerSeq t ht).1).trans hh

/-- Concrete instantiation of `c1_reading_group_policy`: the kana surface
はし registered first for reading はし is wiped when the kanji 橋 arrives,
and the homophone sequence 橋, 端, 橋 is kept as 橋, 端. -/
theorem c1_reading_group_policy_witness :
    entryFor (register_surface [([0x306F, 0x3057], ⟨[[0x306F, 0x3057]], false⟩)]
        [0x306F, 0x3057] [0x6A4B]) [0x306F, 0x3057] = ⟨[[0x6A4B]], true⟩
    ∧ (entryFor (registerSeq [0x306F, 0x3057] [[0x6A4B], [0x7AEF], [0x6A4B]])
        [0x306F, 0x3057]).order = insertionDedup [[0x6A4B], [0x7AEF], [0x6A4B]] := by
  constructor
  · exact c1_reading_group_policy.2.2.1 _ _ _ (by decide) (by decide) (by decide)
      (by decide)
  · exact c1_reading_group_policy.2.2.2.1 _ _ (by decide) (by decide)

/-! ## State invariants of the main loop -/

theorem goodState_processMorpheme {st : List (Str × Entry) × List TokenInfo}
    {mo : Morpheme} (hg : GoodState st.1) : GoodState (processMorpheme st mo).1 := by
  unfold processMorpheme
  split
  · exact hg
  · split
    · exact hg
    · exact goodState_register_surface hg

theorem goodState_foldMorphemes :
    ∀ (ms : List Morpheme) (st : List (Str × Entry) × List TokenInfo),
      GoodState st.1 → GoodState ((ms.foldl processMorpheme st).1) := by
  intro ms
  induction ms with
  | nil => intro st h; exact h
  | cons mo rest ih =>
    intro st h
    exact ih _ (goodState_processMorpheme h)

theorem goodState_processUnit {br : List (Str × Entry)} {ms : List Morpheme}
    (hg : GoodState br) : GoodState (processUnit br ms) := by
  have h1 := goodState_foldMorphemes ms (br, []) hg
  unfold processUnit
  dsimp only
  split
  · exact goodState_register_surface h1
  · exact h1

theorem goodState_dedupState (tok : Str → List Morpheme) (texts : List Str) :
    GoodState (dedupState tok texts) := by
  unfold dedupState
  have : ∀ (ts : List Str) (br : List (Str × Entry)), GoodState br →
      GoodState (ts.foldl
        (fun br text => if text.isEmpty then br else processUnit br (tok text)) br) := by
    intro ts
    induction ts with
    | nil => intro br h; exact h
    | cons t rest ih =>
      intro br h
      simp only [List.foldl_cons]
      split
      · exact ih br h
      · exact ih _ (goodState_processUnit h)
  exact this texts [] goodState_nil

theorem mem_finalize {br : List (Str × Entry)} {r s : Str}
    (h : (r, s) ∈ finalize br) : s ∈ (entryFor br r).order := by
  unfold finalize at h
  rcases List.mem_bind.1 h with ⟨k, hk, hmem⟩
  rcases List.mem_map.1 hmem with ⟨t, htmem, heq⟩
  injection heq with h1 h2
  subst h1
  subst h2
  exact htmem

theorem entryFor_order_nonempty {m : List (Str × Entry)} {r s : Str}
    (hg : GoodState m) (hmem : s ∈ (entryFor m r).order) : r ≠ [] ∧ s ≠ [] := by
  refine ⟨?_, (goodEntry_entryFor hg s hmem).2⟩
  by_cases hin : r ∈ m.map Prod.fst
  · rcases List.mem_map.1 hin with ⟨p, hp, hpr⟩
    exact hpr ▸ (hg p hp).1
  · rw [entryFor_eq_default_of_not_mem hin] at hmem
    cases hmem

/-- C4: the canonical surface of a morpheme is its dictionary form when that
form — after falling back to the literal surface if the dictionary form is
empty — contains a CJK ideograph in U+4E00–U+9FFF, and the literal surface
otherwise; unfolding the fallback, it equals the dictionary form precisely
when the dictionary form itself contains a kanji. -/
theorem c4_canonical_surface (mo : Morpheme) :
    (canonSurface mo =
      if contains_kanji (if mo.dictionaryForm.isEmpty then mo.surface
          else mo.dictionaryForm) = true
      then (if mo.dictionaryForm.isEmpty then mo.surface else mo.dictionaryForm)
      else mo.surface)
    ∧ (canonSurface mo =
      if contains_kanji mo.dictionaryForm = true then mo.dictionaryForm
      else mo.surface) := by
  constructor
  · rfl
  · unfold canonSurface
    by_cases hd : mo.dictionaryForm.isEmpty
    · have hnil : mo.dictionaryForm = [] := by
        simpa using hd
      rw [if_pos hd, hnil]
      simp [contains_kanji]
    · simp [hd]

theorem katakana_to_hiragana_eq_map (s : Str) :
    katakana_to_hiragana s =
      s.map (fun c => if 0x30A1 ≤ c ∧ c ≤ 0x30F6 then c - 0x60 else c) := by
  induction s with
  | nil => rfl
  | cons c rest ih => simp [katakana_to_hiragana, ih]

/-- C5: the reading key maps each katakana code point in U+30A1–U+30F6 to
the code point 0x60 lower, leaves all other characters unchanged, and trims;
a morpheme whose resulting key is empty is silently discarded — the
per-morpheme step returns the state unchanged, so the morpheme contributes
to neither output rows nor phrase assembly, and since the whole pipeline is
made of total functions no error is raised for the batch. -/
theorem c5_reading_key_and_discard (mo : Morpheme)
    (st : List (Str × Entry) × List TokenInfo) :
    (katakana_to_hiragana mo.readingForm =
      mo.readingForm.map (fun c => if 0x30A1 ≤ c ∧ c ≤ 0x30F6 then c - 0x60 else c))
    ∧ readingKey mo = stripStr (katakana_to_hiragana mo.readingForm)
    ∧ (readingKey mo = [] → processMorpheme st mo = st ∧ survivors [mo] = []) := by
  refine ⟨katakana_to_hiragana_eq_map _, rfl, ?_⟩
  intro h
  refine ⟨?_, by simp [survivors, h]⟩
  unfold processMorpheme
  rw [if_pos h]
  split
  · rfl
  · rfl

/-- Concrete instantiation of `c5_reading_key_and_discard`: a noun morpheme
あ whose analyzer-supplied reading is absent (empty) is dropped without
touching the state and without surviving into phrase assembly. -/
theorem c5_witness :
    processMorpheme ([], []) ⟨[0x3042], [], [], [0x540D, 0x8A5E]⟩ = ([], [])
    ∧ survivors [⟨[0x3042], [], [], [0x540D, 0x8A5E]⟩] = [] :=
  (c5_reading_key_and_discard ⟨[0x3042], [], [], [0x540D, 0x8A5E]⟩ ([], [])).2.2
    (by decide)

/-- C10: every pair the deduplicator emits has a nonempty reading and a
nonempty surface, because `_register_surface` silently ignores an empty
surface string; yet a morpheme with a nonempty reading whose literal and
dictionary surfaces are both empty is still appended to the token-info list,
so it counts toward the two-morpheme phrase threshold and contributes its
reading to the concatenated phrase reading. -/
theorem c10_nonempty_rows_empty_surface_phrase :
    (∀ (tok : Str → List Morpheme) (texts : List Str) (r s : Str),
        (r, s) ∈ tokenize_and_deduplicate tok texts → r ≠ [] ∧ s ≠ [])
    ∧ (∀ (m : List (Str × Entry)) (r : Str), register_surface m r [] = m)
    ∧ (∀ (st : List (Str × Entry) × List TokenInfo) (mo : Morpheme),
        ¬ mo.posMajor = kigou → ¬ readingKey mo = [] →
        mo.surface = [] → mo.dictionaryForm = [] →
        processMorpheme st mo =
          (st.1, st.2 ++ [⟨readingKey mo, [], [], mo.posMajor⟩])) := by
  refine ⟨?_, ?_, ?_⟩
  · intro tok texts r s h
    exact entryFor_order_nonempty (goodState_dedupState tok texts) (mem_finalize h)
  · intro m r
    simp [register_surface]
  · intro st mo h1 h2 hsur hdict
    have hc : canonSurface mo = [] := by
      simp [canonSurface, hsur, hdict]
    have hreg : register_surface st.1 (readingKey mo) [] = st.1 := by
      simp [register_surface]
    unfold processMorpheme
    rw [if_neg h1, if_neg h2, hc, hsur, hreg]

/-- Concrete instantiation of `c10_nonempty_rows_empty_surface_phrase`:
a particle morpheme with reading カ and empty surface and dictionary form
leaves the registration state untouched but is recorded for phrase
assembly under its reading か. -/
theorem c10_witness :
    processMorpheme ([], []) ⟨[], [0x30AB], [], [0x52A9, 0x8A5E]⟩ =
      ([], [⟨[0x304B], [], [], [0x52A9, 0x8A5E]⟩]) := by
  have h := c10_nonempty_rows_empty_surface_phrase.2.2 ([], [])
    ⟨[], [0x30AB], [], [0x52A9, 0x8A5E]⟩ (by decide) (by decide) rfl rfl
  rw [h]
  rfl

/-! ## The per-unit fold in declarative form -/

theorem foldl_processMorpheme_eq :
    ∀ (ms : List Morpheme) (br : List (Str × Entry)) (infos : List TokenInfo),
      ms.foldl processMorpheme (br, infos) =
        ((survivors ms).foldl
            (fun b mo => register_surface b (readingKey mo) (canonSurface mo)) br,
          infos ++ (survivors ms).map toInfo) := by
  intro ms
  induction ms with
  | nil => intro br infos; simp [survivors]
  | cons mo rest ih =>
    intro br infos
    by_cases h1 : mo.posMajor = kigou
    · have hs : survivors (mo :: rest) = survivors rest := by
        simp [survivors, h1]
      have hstep : processMorpheme (br, infos) mo = (br, infos) := by
        unfold processMorpheme
        rw [if_pos h1]
      simp only [List.foldl_cons]
      rw [hstep, ih br infos, hs]
    · by_cases h2 : readingKey mo = []
      · have hs : survivors (mo :: rest) = survivors rest := by
          simp [survivors, h2]
        have hstep : processMorpheme (br, infos) mo = (br, infos) := by
          unfold processMorpheme
          rw [if_neg h1, if_pos h2]
        simp only [List.foldl_cons]
        rw [hstep, ih br infos, hs]
      · have hs : survivors (mo :: rest) = mo :: survivors rest := by
          simp [survivors, h1, h2]
        have hstep : processMorpheme (br, infos) mo =
            (register_surface br (readingKey mo) (canonSurface mo),
             infos ++ [toInfo mo]) := by
          unfold processMorpheme
          rw [if_neg h1, if_neg h2]
          rfl
        simp only [List.foldl_cons]
        rw [hstep, ih, hs]
        simp only [List.foldl_cons, List.map_cons, List.append_assoc,
          List.singleton_append]

/-- C3: a phrase-level entry is registered for a unit exactly when at least
two morphemes survived filtering and at least one survivor's major
part-of-speech tag differs from 名詞 (noun); the phrase reading and surface
are the trimmed in-order concatenations of the survivors' reading keys and
literal surfaces, and the pair goes through `_register_surface` exactly like
a morpheme-level entry.  In particular a unit consisting solely of nouns
registers no phrase entry. -/
theorem c3_phrase_registration (br : List (Str × Entry)) (ms : List Morpheme) :
    (processUnit br ms =
      if 2 ≤ (survivors ms).length ∧ ∃ mo ∈ survivors ms, ¬ mo.posMajor = meishi
      then register_surface (registerMorphemes br ms) (phraseReading ms)
        (phraseSurface ms)
      else registerMorphemes br ms)
    ∧ ((∀ mo ∈ survivors ms, mo.posMajor = meishi) →
        processUnit br ms = registerMorphemes br ms) := by
  have hmain : processUnit br ms =
      if 2 ≤ (survivors ms).length ∧ ∃ mo ∈ survivors ms, ¬ mo.posMajor = meishi
      then register_surface (registerMorphemes br ms) (phraseReading ms)
        (phraseSurface ms)
      else registerMorphemes br ms := by
    unfold processUnit
    rw [foldl_processMorpheme_eq ms br []]
    dsimp only
    have hcond : (2 ≤ ([] ++ (survivors ms).map toInfo).length ∧
        ∃ i ∈ [] ++ (survivors ms).map toInfo, ¬ i.posMajor = meishi) ↔
        (2 ≤ (survivors ms).length ∧ ∃ mo ∈ survivors ms, ¬ mo.posMajor = meishi) := by
      simp [toInfo]
    rw [if_congr hcond ?_ rfl]
    · rfl
    · unfold phraseReading phraseSurface registerMorphemes
      congr 1
      · congr 1
        simp [toInfo, List.map_map]
        rfl
      · congr 1
        simp [toInfo, List.map_map]
        rfl
  refine ⟨hmain, fun hall => ?_⟩
  rw [hmain, if_neg]
  intro hc
  rcases hc.2 with ⟨mo, hmo, hne⟩
  exact hne (hall mo hmo)

/-- Concrete instantiation of `c3_phrase_registration`: the two-noun unit
橋·端 (both read ハシ) registers its morphemes but no phrase entry. -/
theorem c3_witness :
    processUnit []
      [⟨[0x6A4B], [0x30CF, 0x30B7], [0x6A4B], [0x540D, 0x8A5E]⟩,
       ⟨[0x7AEF], [0x30CF, 0x30B7], [0x7AEF], [0x540D, 0x8A5E]⟩] =
      registerMorphemes []
        [⟨[0x6A4B], [0x30CF, 0x30B7], [0x6A4B], [0x540D, 0x8A5E]⟩,
         ⟨[0x7AEF], [0x30CF, 0x30B7], [0x7AEF], [0x540D, 0x8A5E]⟩] :=
  (c3_phrase_registration [] _).2 (by decide)

/-! ## Units whose morphemes are all discarded -/

theorem processUnit_discardAll {br : List (Str × Entry)} {ms : List Morpheme}
    (h : ∀ mo ∈ ms, mo.posMajor = kigou ∨ readingKey mo = []) :
    processUnit br ms = br := by
  have hs : survivors ms = [] := by
    refine List.filter_eq_nil.2 (fun mo hmo => ?_)
    rcases h mo hmo with h1 | h1 <;> simp [h1]
  unfold processUnit
  rw [foldl_processMorpheme_eq ms br [], hs]
  simp

/-- C8: an input unit that is empty or consists only of whitespace
contributes nothing: the deduplicator's output over a batch equals its
output over the batch with all such units removed.  An empty unit is skipped
outright by the loop; a whitespace-only unit reaches the analyzer, and the
hypothesis records the analyzer's behaviour on such text — every morpheme it
returns is symbol-class or has an empty reading key (blank readings), so the
unit registers nothing. -/
theorem c8_whitespace_units (tok : Str → List Morpheme) (texts : List Str)
    (h : ∀ u : Str, u ≠ [] → u.all isPySpace = true →
      ∀ mo ∈ tok u, mo.posMajor = kigou ∨ readingKey mo = []) :
    tokenize_and_deduplicate tok texts =
      tokenize_and_deduplicate tok (texts.filter (fun u => !(u.all isPySpace))) := by
  unfold tokenize_and_deduplicate
  congr 1
  unfold dedupState
  suffices h2 : ∀ (ts : List Str) (br : List (Str × Entry)),
      ts.foldl (fun br text => if text.isEmpty then br else processUnit br (tok text)) br =
        (ts.filter (fun u => !(u.all isPySpace))).foldl
          (fun br text => if text.isEmpty then br else processUnit br (tok text)) br by
    exact h2 texts []
  intro ts
  induction ts with
  | nil => intro br; rfl
  | cons t rest ih =>
    intro br
    by_cases hsp : t.all isPySpace = true
    · have hfil : (t :: rest).filter (fun u => !(u.all isPySpace)) =
          rest.filter (fun u => !(u.all isPySpace)) := by
        simp [List.filter_cons, hsp]
      rw [hfil]
      simp only [List.foldl_cons]
      by_cases ht : t.isEmpty
      · rw [if_pos ht]
        exact ih br
      · rw [if_neg ht]
        have hne : t ≠ [] := fun he => ht (by simp [he])
        rw [processUnit_discardAll (h t hne hsp)]
        exact ih br
    · have hfil : (t :: rest).filter (fun u => !(u.all isPySpace)) =
          t :: rest.filter (fun u => !(u.all isPySpace)) := by
        simp [List.filter_cons, hsp]
      rw [hfil]
      simp only [List.foldl_cons]
      exact ih _

/-- Concrete instantiation of `c8_whitespace_units`: with an analyzer that
returns no morphemes, dropping the whitespace-only unit "␣" from a batch
leaves the output unchanged. -/
theorem c8_witness :
    tokenize_and_deduplicate (fun _ => []) [[0x20], [0x3042]] =
      tokenize_and_deduplicate (fun _ => []) [[0x3042]] := by
  have h := c8_whitespace_units (fun _ => []) [[0x20], [0x3042]]
    (fun u _ _ mo hmo => absurd hmo (List.not_mem_nil mo))
  rw [show ([[0x20], [0x3042]] : List Str).filter (fun u => !(u.all isPySpace)) =
    [[0x3042]] from by decide] at h
  exact h

/-- C9: the deduplicator raises no domain errors of its own — when the
external analyzer succeeds on every unit the batch produces the complete
result — and when the analyzer fails on a unit the failure propagates to the
caller unchanged: the call returns exactly the analyzer's error and no
partial result. -/
theorem c9_error_propagation {ε : Type} (tokE : Str → Except ε (List Morpheme))
    (texts : List Str) :
    (∀ tok : Str → List Morpheme, (∀ t, tokE t = Except.ok (tok t)) →
      tokenizeAndDeduplicateE tokE texts =
        Except.ok (tokenize_and_deduplicate tok texts))
    ∧ (∀ (texts1 : List Str) (u : Str) (texts2 : List Str) (e : ε),
        texts = texts1 ++ u :: texts2 →
        (∀ t ∈ texts1, t ≠ [] → ∃ ms, tokE t = Except.ok ms) →
        u ≠ [] → tokE u = Except.error e →
        tokenizeAndDeduplicateE tokE texts = Except.error e) := by
  constructor
  · intro tok hok
    unfold tokenizeAndDeduplicateE tokenize_and_deduplicate dedupState
    suffices h2 : ∀ (ts : List Str) (br : List (Str × Entry)),
        ts.foldlM (fun br (text : Str) =>
            if text.isEmpty then pure br else (tokE text).map (processUnit br)) br =
          Except.ok (ts.foldl
            (fun br text => if text.isEmpty then br else processUnit br (tok text)) br) by
      rw [h2 texts []]
      rfl
    intro ts
    induction ts with
    | nil => intro br; rfl
    | cons t rest ih =>
      intro br
      simp only [List.foldlM_cons, List.foldl_cons]
      by_cases ht : t.isEmpty
      · rw [if_pos ht, if_pos ht]
        exact ih br
      · rw [if_neg ht, if_neg ht, hok t]
        exact ih _
  · intro texts1 u texts2 e heq hpre hu herr
    subst heq
    unfold tokenizeAndDeduplicateE
    suffices h2 : ∀ (ts1 : List Str) (br : List (Str × Entry)),
        (∀ t ∈ ts1, t ≠ [] → ∃ ms, tokE t = Except.ok ms) →
        (ts1 ++ u :: texts2).foldlM (fun br (text : Str) =>
            if text.isEmpty then pure br else (tokE text).map (processUnit br)) br =
          Except.error e by
      rw [h2 texts1 [] hpre]
      rfl
    intro ts1
    induction ts1 with
    | nil =>
      intro br _
      simp only [List.nil_append, List.foldlM_cons]
      rw [if_neg (fun habs => hu (by simpa using habs)), herr]
      rfl
    | cons t rest ih =>
      intro br hpr
      simp only [List.cons_append, List.foldlM_cons]
      by_cases ht : t.isEmpty
      · rw [if_pos ht]
        exact ih br (fun s hs => hpr s (List.mem_cons_of_mem _ hs))
      · rw [if_neg ht]
        obtain ⟨ms, hms⟩ := hpr t (List.mem_cons_self _ _) (fun he => ht (by simp [he]))
        rw [hms]
        exact ih _ (fun s hs => hpr s (List.mem_cons_of_mem _ hs))

/-- Concrete instantiation of `c9_error_propagation`: an analyzer that fails
with error 7 on the unit あ makes the whole batch fail with error 7 (the
preceding empty unit is skipped without consulting the analyzer). -/
theorem c9_witness :
    tokenizeAndDeduplicateE (fun _ => Except.error (7 : Nat)) [[], [0x3042]] =
      Except.error 7 :=
  (c9_error_propagation (fun _ => Except.error (7 : Nat)) [[], [0x3042]]).2
    [[]] [0x3042] [] 7 rfl
    (fun t ht hne => absurd (List.mem_singleton.mp ht) hne)
    (by decide) rfl

/-! ## The lexicographic code-point order -/

theorem lexLe_refl : ∀ a : Str, lexLe a a = true
  | [] => rfl
  | c :: rest => by simp [lexLe, Nat.lt_irrefl, lexLe_refl rest]

theorem lexLe_total : ∀ a b : Str, lexLe a b = true ∨ lexLe b a = true
  | [], _ => Or.inl rfl
  | _ :: _, [] => Or.inr rfl
  | a :: as, b :: bs => by
    rcases Nat.lt_trichotomy a b with h | h | h
    · left; simp [lexLe, h]
    · subst h
      rcases lexLe_total as bs with h2 | h2
      · left; simp [lexLe, Nat.lt_irrefl, h2]
      · right; simp [lexLe, Nat.lt_irrefl, h2]
    · right; simp [lexLe, h]

theorem lexLe_trans :
    ∀ a b c : Str, lexLe a b = true → lexLe b c = true → lexLe a c = true
  | [], _, _, _, _ => rfl
  | _ :: _, [], _, h1, _ => by cases h1
  | _ :: _, _ :: _, [], _, h2 => by cases h2
  | a :: as, b :: bs, c :: cs, h1, h2 => by
    simp only [lexLe] at h1 h2 ⊢
    rcases Nat.lt_trichotomy a b with hab | hab | hab
    · rcases Nat.lt_trichotomy b c with hbc | hbc | hbc
      · simp [Nat.lt_trans hab hbc]
      · subst hbc; simp [hab]
      · rw [if_neg (Nat.lt_asymm hbc), if_pos hbc] at h2; cases h2
    · subst hab
      rw [if_neg (Nat.lt_irrefl a), if_neg (Nat.lt_irrefl a)] at h1
      rcases Nat.lt_trichotomy a c with hbc | hbc | hbc
      · simp [hbc]
      · subst hbc
        rw [if_neg (Nat.lt_irrefl a), if_neg (Nat.lt_irrefl a)] at h2
        rw [if_neg (Nat.lt_irrefl a), if_neg (Nat.lt_irrefl a)]
        exact lexLe_trans as bs cs h1 h2
      · rw [if_neg (Nat.lt_asymm hbc), if_pos hbc] at h2; cases h2
    · rw [if_neg (Nat.lt_asymm hab), if_pos hab] at h1; cases h1

theorem lexLe_ne_imp_lt :
    ∀ a b : Str, lexLe a b = true → a ≠ b → lexLt a b = true
  | [], [], _, hne => absurd rfl hne
  | [], _ :: _, _, _ => rfl
  | _ :: _, [], h, _ => by cases h
  | a :: as, b :: bs, h, hne => by
    simp only [lexLe, lexLt] at h ⊢
    rcases Nat.lt_trichotomy a b with hab | hab | hab
    · simp [hab]
    · subst hab
      rw [if_neg (Nat.lt_irrefl a), if_neg (Nat.lt_irrefl a)] at h ⊢
      exact lexLe_ne_imp_lt as bs h (fun he => hne (by rw [he]))
    · rw [if_neg (Nat.lt_asymm hab), if_pos hab] at h; cases h

instance : IsTotal Str LexLe := ⟨fun a b => lexLe_total a b⟩

instance : IsTrans Str LexLe := ⟨fun a b c => lexLe_trans a b c⟩

/-! ## Keys of the dictionary state -/

theorem keys_registerInto (m : List (Str × Entry)) (r s : Str) :
    (registerInto m r s).map Prod.fst =
      if r ∈ m.map Prod.fst then m.map Prod.fst else m.map Prod.fst ++ [r] := by
  induction m with
  | nil => simp [registerInto]
  | cons p rest ih =>
    obtain ⟨k, e⟩ := p
    by_cases hk : k = r
    · subst hk
      simp [registerInto]
    · simp only [registerInto, if_neg hk, List.map_cons]
      rw [ih]
      by_cases hr : r ∈ rest.map Prod.fst
      · rw [if_pos hr, if_pos (List.mem_cons_of_mem _ hr)]
      · rw [if_neg hr, if_neg (fun hc => by
          rcases List.mem_cons.1 hc with h | h
          · exact hk h.symm
          · exact hr h)]
        simp

theorem nodup_keys_register_surface {m : List (Str × Entry)}
    (h : (m.map Prod.fst).Nodup) (r s : Str) :
    ((register_surface m r s).map Prod.fst).Nodup := by
  unfold register_surface
  split
  · exact h
  · rw [keys_registerInto]
    split
    · exact h
    · rename_i hr
      simp [List.nodup_append, h, hr]

theorem nodup_keys_processMorpheme {st : List (Str × Entry) × List TokenInfo}
    {mo : Morpheme} (h : (st.1.map Prod.fst).Nodup) :
    (((processMorpheme st mo).1).map Prod.fst).Nodup := by
  unfold processMorpheme
  split
  · exact h
  · split
    · exact h
    · exact nodup_keys_register_surface h _ _

theorem nodup_keys_foldMorphemes :
    ∀ (ms : List Morpheme) (st : List (Str × Entry) × List TokenInfo),
      (st.1.map Prod.fst).Nodup → (((ms.foldl processMorpheme st).1).map Prod.fst).Nodup := by
  intro ms
  induction ms with
  | nil => intro st h; exact h
  | cons mo rest ih =>
    intro st h
    exact ih _ (nodup_keys_processMorpheme h)

theorem nodup_keys_processUnit {br : List (Str × Entry)} {ms : List Morpheme}
    (h : (br.map Prod.fst).Nodup) : ((processUnit br ms).map Prod.fst).Nodup := by
  have h1 := nodup_keys_foldMorphemes ms (br, []) h
  unfold processUnit
  dsimp only
  split
  · exact nodup_keys_register_surface h1 _ _
  · exact h1

theorem nodup_keys_dedupState (tok : Str → List Morpheme) (texts : List Str) :
    ((dedupState tok texts).map Prod.fst).Nodup := by
  unfold dedupState
  have h2 : ∀ (ts : List Str) (br : List (Str × Entry)), (br.map Prod.fst).Nodup →
      ((ts.foldl (fun br text =>
          if text.isEmpty then br else processUnit br (tok text)) br).map Prod.fst).Nodup := by
    intro ts
    induction ts with
    | nil => intro br h; exact h
    | cons t rest ih =>
      intro br h
      simp only [List.foldl_cons]
      split
      · exact ih br h
      · exact ih _ (nodup_keys_processUnit h)
  exact h2 texts [] (by simp)

/-! ## Structure of the finalized output -/

theorem pairwise_of_forall {α : Type} (R : α → α → Prop) (h : ∀ a b, R a b) :
    ∀ l : List α, l.Pairwise R := by
  intro l
  induction l with
  | nil => exact List.Pairwise.nil
  | cons a rest ih => exact List.Pairwise.cons (fun b _ => h a b) ih

theorem pairwise_finalize_blocks {br : List (Str × Entry)} :
    ∀ {ks : List Str}, ks.Pairwise LexLe →
      (ks.bind (fun r => (entryFor br r).order.map (fun s => (r, s)))).Pairwise
        (fun p q : Str × Str =>
          lexLe p.1 q.1 = true ∧ (p.1 ≠ q.1 → lexLt p.1 q.1 = true)) := by
  intro ks
  induction ks with
  | nil => intro _; exact List.Pairwise.nil
  | cons k rest ih =>
    intro hsort
    rcases List.pairwise_cons.1 hsort with ⟨hhead, htail⟩
    simp only [List.cons_bind]
    rw [List.pairwise_append]
    refine ⟨?_, ih htail, ?_⟩
    · rw [List.pairwise_map]
      refine pairwise_of_forall _ (fun a b => ?_) _
      exact ⟨lexLe_refl k, fun hne => absurd rfl hne⟩
    · intro a ha b hb
      rcases List.mem_map.1 ha with ⟨s, _, rfl⟩
      rcases List.mem_bind.1 hb with ⟨k2, hk2, hb2⟩
      rcases List.mem_map.1 hb2 with ⟨s2, _, rfl⟩
      have hle : lexLe k k2 = true := hhead k2 hk2
      exact ⟨hle, fun hne => lexLe_ne_imp_lt _ _ hle hne⟩

theorem filter_bind_blocks {br : List (Str × Entry)} (r : Str) :
    ∀ {ks : List Str}, ks.Nodup →
      (((ks.bind (fun k => (entryFor br k).order.map (fun s => (k, s)))).filter
          (fun p => decide (p.1 = r))).map Prod.snd) =
        if r ∈ ks then (entryFor br r).order else [] := by
  intro ks
  induction ks with
  | nil => intro _; simp
  | cons k rest ih =>
    intro hnd
    rcases List.nodup_cons.1 hnd with ⟨hk, hnd2⟩
    simp only [List.cons_bind, List.filter_append, List.map_append]
    rw [ih hnd2]
    by_cases hkr : k = r
    · subst hkr
      have hfk : ((entryFor br k).order.map (fun s => (k, s))).filter
          (fun p => decide (p.1 = k)) = (entryFor br k).order.map (fun s => (k, s)) := by
        refine List.filter_eq_self.2 (fun p hp => ?_)
        rcases List.mem_map.1 hp with ⟨s, _, rfl⟩
        simp
      rw [hfk, if_neg hk, if_pos (List.mem_cons_self _ _)]
      simp [List.map_map, Function.comp]
    · have hfk : ((entryFor br k).order.map (fun s => (k, s))).filter
          (fun p => decide (p.1 = r)) = [] := by
        refine List.filter_eq_nil.2 (fun p hp => ?_)
        rcases List.mem_map.1 hp with ⟨s, _, rfl⟩
        simp [hkr]
      rw [hfk]
      by_cases hr : r ∈ rest
      · rw [if_pos hr, if_pos (List.mem_cons_of_mem _ hr)]
        simp
      · rw [if_neg hr, if_neg (fun hc => by
          rcases List.mem_cons.1 hc with h | h
          · exact hkr h.symm
          · exact hr h)]
        simp

/-- C2: the deduplicator's output is sorted by reading in code-point order,
strictly between distinct readings; the rows sharing any fixed reading are,
in order, exactly the surviving surfaces of that reading's group in their
first-insertion order; and a pair occurs in the output exactly when its
surface survives in its reading's group — one flat row per surviving
surface. -/
theorem c2_sorted_output (tok : Str → List Morpheme) (texts : List Str) :
    ((tokenize_and_deduplicate tok texts).Pairwise
      (fun p q : Str × Str => lexLe p.1 q.1 = true ∧ (p.1 ≠ q.1 → lexLt p.1 q.1 = true)))
    ∧ (∀ r : Str,
        (((tokenize_and_deduplicate tok texts).filter
            (fun p => decide (p.1 = r))).map Prod.snd) =
          (entryFor (dedupState tok texts) r).order)
    ∧ (∀ r s : Str, (r, s) ∈ tokenize_and_deduplicate tok texts ↔
        s ∈ (entryFor (dedupState tok texts) r).order) := by
  set br := dedupState tok texts with hbr
  have hnd : (br.map Prod.fst).Nodup := nodup_keys_dedupState tok texts
  have hperm := List.perm_insertionSort LexLe (br.map Prod.fst)
  have hsorted := List.sorted_insertionSort LexLe (br.map Prod.fst)
  have hndks : (List.insertionSort LexLe (br.map Prod.fst)).Nodup :=
    hperm.nodup_iff.2 hnd
  refine ⟨?_, ?_, ?_⟩
  · exact pairwise_finalize_blocks hsorted
  · intro r
    show (((List.insertionSort LexLe (br.map Prod.fst)).bind
        (fun k => (entryFor br k).order.map (fun s => (k, s)))).filter
          (fun p => decide (p.1 = r))).map Prod.snd = (entryFor br r).order
    rw [filter_bind_blocks r hndks]
    by_cases hr : r ∈ List.insertionSort LexLe (br.map Prod.fst)
    · rw [if_pos hr]
    · rw [if_neg hr]
      rw [entryFor_eq_default_of_not_mem (fun hc => hr (hperm.mem_iff.2 hc))]
  · intro r s
    constructor
    · exact mem_finalize
    · intro hmem
      have hrk : r ∈ br.map Prod.fst := by
        by_contra hc
        rw [entryFor_eq_default_of_not_mem hc] at hmem
        cases hmem
      show (r, s) ∈ (List.insertionSort LexLe (br.map Prod.fst)).bind
        (fun k => (entryFor br k).order.map (fun t => (k, t)))
      exact List.mem_bind.2 ⟨r, hperm.mem_iff.2 hrk,
        List.mem_map.2 ⟨s, hmem, rfl⟩⟩

/-- Concrete instantiation of `c2_sorted_output`: with an analyzer giving
橋 read ハシ, the row (はし, 橋) appears in the output because 橋 survives
in the group of reading はし. -/
theorem c2_witness :
    ([0x306F, 0x3057], [0x6A4B]) ∈ tokenize_and_deduplicate
      (fun _ => [⟨[0x6A4B], [0x30CF, 0x30B7], [0x6A4B], [0x540D, 0x8A5E]⟩])
      [[0x71]] :=
  ((c2_sorted_output
      (fun _ => [⟨[0x6A4B], [0x30CF, 0x30B7], [0x6A4B], [0x540D, 0x8A5E]⟩])
      [[0x71]]).2.2 [0x306F, 0x3057] [0x6A4B]).mpr (by decide)

/-! ## The normalizer's character discipline -/

theorem mem_keepJapanese {l : Str} {c : Nat} (h : c ∈ keepJapanese l) :
    c = 0x20 ∨ (c ∈ l ∧ in_japanese_ranges c = true ∧ isPySpace c = false) := by
  induction l with
  | nil => cases h
  | cons d rest ih =>
    unfold keepJapanese at h
    split at h
    · rcases List.mem_cons.1 h with rfl | h2
      · exact Or.inl rfl
      · rcases ih h2 with h3 | h3
        · exact Or.inl h3
        · exact Or.inr ⟨List.mem_cons_of_mem _ h3.1, h3.2⟩
    · split at h
      · rcases List.mem_cons.1 h with rfl | h2
        · rename_i hsp hjr
          exact Or.inr ⟨List.mem_cons_self _ _, hjr, by simpa using hsp⟩
        · rcases ih h2 with h3 | h3
          · exact Or.inl h3
          · exact Or.inr ⟨List.mem_cons_of_mem _ h3.1, h3.2⟩
      · rcases ih h with h3 | h3
        · exact Or.inl h3
        · exact Or.inr ⟨List.mem_cons_of_mem _ h3.1, h3.2⟩

theorem mem_collapseSpaces : ∀ {l : Str} {c : Nat}, c ∈ collapseSpaces l →
    c = 0x20 ∨ c ∈ l := by
  intro l
  induction l with
  | nil => intro c h; cases h
  | cons d rest ih =>
    intro c h
    cases rest with
    | nil =>
      unfold collapseSpaces at h
      split at h
      · rcases List.mem_singleton.1 h with rfl
        exact Or.inl rfl
      · rcases List.mem_singleton.1 h with rfl
        exact Or.inr (List.mem_cons_self _ _)
    | cons e rest2 =>
      unfold collapseSpaces at h
      split at h
      · split at h
        · rcases ih h with h2 | h2
          · exact Or.inl h2
          · exact Or.inr (List.mem_cons_of_mem _ h2)
        · rcases List.mem_cons.1 h with rfl | h2
          · exact Or.inl rfl
          · rcases ih h2 with h3 | h3
            · exact Or.inl h3
            · exact Or.inr (List.mem_cons_of_mem _ h3)
      · rcases List.mem_cons.1 h with rfl | h2
        · exact Or.inr (List.mem_cons_self _ _)
        · rcases ih h2 with h3 | h3
          · exact Or.inl h3
          · exact Or.inr (List.mem_cons_of_mem _ h3)

theorem mem_stripStr {l : Str} {c : Nat} (h : c ∈ stripStr l) : c ∈ l := by
  unfold stripStr at h
  rw [List.mem_reverse] at h
  have h2 := (List.dropWhile_sublist isPySpace).subset h
  rw [List.mem_reverse] at h2
  exact (List.dropWhile_sublist isPySpace).subset h2

theorem asciiLetter_facts {c : Nat} (h : isAsciiLetter c = true) :
    isPySpace c = false ∧ in_japanese_ranges c = false ∧ c ≠ 0x3000 := by
  simp only [isAsciiLetter, Bool.or_eq_true, Bool.and_eq_true,
    decide_eq_true_eq] at h
  refine ⟨?_, ?_, by omega⟩
  · rw [Bool.eq_false_iff]
    intro hc
    simp only [isPySpace, Bool.or_eq_true, Bool.and_eq_true, beq_iff_eq,
      decide_eq_true_eq] at hc
    omega
  · rw [Bool.eq_false_iff]
    intro hc
    simp only [in_japanese_ranges, Bool.or_eq_true, Bool.and_eq_true,
      decide_eq_true_eq] at hc
    omega

theorem keepJapanese_eq_nil {l : Str}
    (h : ∀ c ∈ l, isPySpace c = false ∧ in_japanese_ranges c = false) :
    keepJapanese l = [] := by
  induction l with
  | nil => rfl
  | cons d rest ih =>
    unfold keepJapanese
    rw [if_neg (by simp [(h d (List.mem_cons_self _ _)).1]),
      if_neg (by simp [(h d (List.mem_cons_self _ _)).2])]
    exact ih (fun c hc => h c (List.mem_cons_of_mem _ hc))

theorem map_id_of_mem {l : Str} {f : Nat → Nat} (h : ∀ c ∈ l, f c = c) :
    l.map f = l := by
  induction l with
  | nil => rfl
  | cons d rest ih =>
    simp only [List.map_cons, h d (List.mem_cons_self _ _),
      ih (fun c hc => h c (List.mem_cons_of_mem _ hc))]

/-- C7: every character the normalizer outputs is a space or lies in one of
the eight permitted Japanese ranges, for any normalization function; and an
input consisting solely of ASCII letters (on which NFKC is the identity)
filters to the empty string. -/
theorem c7_normalizer_output (nfkc : Str → Str) (s : Str) :
    (∀ c ∈ filter_non_japanese nfkc s, c = 0x20 ∨ in_japanese_ranges c = true)
    ∧ ((∀ c ∈ s, isAsciiLetter c = true) → nfkc s = s →
        filter_non_japanese nfkc s = []) := by
  constructor
  · intro c hc
    unfold filter_non_japanese at hc
    split at hc
    · cases hc
    · have h1 := mem_stripStr hc
      rcases mem_collapseSpaces h1 with h2 | h2
      · exact Or.inl h2
      · rcases mem_keepJapanese h2 with h3 | h3
        · exact Or.inl h3
        · exact Or.inr h3.2.1
  · intro hall hid
    unfold filter_non_japanese
    split
    · rfl
    · rw [hid]
      rw [map_id_of_mem (fun c hc => by
        rw [if_neg (by simp [(asciiLetter_facts (hall c hc)).2.2])])]
      rw [keepJapanese_eq_nil (fun c hc =>
        ⟨(asciiLetter_facts (hall c hc)).1, (asciiLetter_facts (hall c hc)).2.1⟩)]
      rfl

/-- Concrete instantiation of `c7_normalizer_output`: the pure-ASCII input
"abc" normalizes to the empty string. -/
theorem c7_witness : filter_non_japanese id [0x61, 0x62, 0x63] = [] :=
  (c7_normalizer_output id [0x61, 0x62, 0x63]).2 (by decide) rfl

/-! ## Stability of the NFKC model on its own output -/

theorem decomp_small {c : Nat} (h : c < 0x3000) : decomp c = [c] := by
  unfold decomp
  rw [if_neg (by simp only [beq_iff_eq]; omega),
    if_neg (by simp only [beq_iff_eq]; omega),
    if_neg (by simp only [beq_iff_eq]; omega),
    if_neg (by simp only [beq_iff_eq]; omega),
    if_neg (by simp only [beq_iff_eq]; omega),
    if_neg (by simp only [beq_iff_eq]; omega),
    if_neg (by simp only [beq_iff_eq]; omega),
    if_neg (by simp only [Bool.and_eq_true, decide_eq_true_eq]; omega),
    if_neg (by simp only [beq_iff_eq]; omega),
    if_neg (by simp only [beq_iff_eq]; omega),
    if_neg (by simp only [beq_iff_eq]; omega),
    if_neg (by simp only [beq_iff_eq]; omega),
    if_neg (by simp only [beq_iff_eq]; omega),
    if_neg (by simp only [Bool.and_eq_true, decide_eq_true_eq]; omega),
    if_neg (by simp only [beq_iff_eq]; omega),
    if_neg (by simp only [beq_iff_eq]; omega)]

theorem hw_props : ∀ i < 56,
    decomp (halfwidthKatakana i) = [halfwidthKatakana i] ∧
    halfwidthKatakana i ≠ 0x3000 ∧ ccc (halfwidthKatakana i) = 0 := by decide

theorem ccc_small {c : Nat} (h : c < 0x3000) : ccc c = 0 := by
  unfold ccc
  rw [if_neg (by simp only [Bool.or_eq_true, beq_iff_eq]; omega),
    if_neg (by simp only [beq_iff_eq]; omega),
    if_neg (by simp only [beq_iff_eq]; omega),
    if_neg (by simp only [beq_iff_eq]; omega),
    if_neg (by simp only [beq_iff_eq]; omega),
    if_neg (by simp only [Bool.or_eq_true, beq_iff_eq]; omega)]

theorem ccc_eq_zero {c : Nat} (h : c ∉ soundMarks) : ccc c = 0 := by
  have h1 : c ≠ 0x3099 := fun he => h (by rw [he]; decide)
  have h2 : c ≠ 0x309A := fun he => h (by rw [he]; decide)
  have h3 : c ≠ 0x302A := fun he => h (by rw [he]; decide)
  have h4 : c ≠ 0x302B := fun he => h (by rw [he]; decide)
  have h5 : c ≠ 0x302C := fun he => h (by rw [he]; decide)
  have h6 : c ≠ 0x302D := fun he => h (by rw [he]; decide)
  have h7 : c ≠ 0x302E := fun he => h (by rw [he]; decide)
  have h8 : c ≠ 0x302F := fun he => h (by rw [he]; decide)
  unfold ccc
  rw [if_neg (by simp [h1, h2]), if_neg (by simp [h3]), if_neg (by simp [h4]),
    if_neg (by simp [h5]), if_neg (by simp [h6]), if_neg (by simp [h7, h8])]

theorem ne_kana_marks_of_ccc_zero {c : Nat} (h : ccc c = 0) :
    c ≠ 0x3099 ∧ c ≠ 0x309A := by
  constructor <;> rintro rfl <;> simp [ccc] at h

theorem decomp_props (c : Nat) :
    ∀ d ∈ decomp c, decomp d = [d] ∧ d ≠ 0x3000 ∧
      (c ∉ soundMarks → ccc d = 0) := by
  intro d h
  unfold decomp at h
  by_cases h1 : (c == 0x3000) = true
  · rw [if_pos h1] at h
    have hc2 : c = 0x3000 := by simpa using h1
    subst hc2
    rcases List.mem_singleton.1 h with rfl
    decide
  rw [if_neg h1] at h
  by_cases h2 : (c == 0x3036) = true
  · rw [if_pos h2] at h
    have hc2 : c = 0x3036 := by simpa using h2
    subst hc2
    rcases List.mem_singleton.1 h with rfl
    decide
  rw [if_neg h2] at h
  by_cases h3 : (c == 0x3038) = true
  · rw [if_pos h3] at h
    have hc2 : c = 0x3038 := by simpa using h3
    subst hc2
    rcases List.mem_singleton.1 h with rfl
    decide
  rw [if_neg h3] at h
  by_cases h4 : (c == 0x3039) = true
  · rw [if_pos h4] at h
    have hc2 : c = 0x3039 := by simpa using h4
    subst hc2
    rcases List.mem_singleton.1 h with rfl
    decide
  rw [if_neg h4] at h
  by_cases h5 : (c == 0x303A) = true
  · rw [if_pos h5] at h
    have hc2 : c = 0x303A := by simpa using h5
    subst hc2
    rcases List.mem_singleton.1 h with rfl
    decide
  rw [if_neg h5] at h
  by_cases h6 : (c == 0x309B) = true
  · rw [if_pos h6] at h
    have hc2 : c = 0x309B := by simpa using h6
    subst hc2
    rcases List.mem_cons.1 h with rfl | h2
    · decide
    · rcases List.mem_singleton.1 h2 with rfl
      decide
  rw [if_neg h6] at h
  by_cases h7 : (c == 0x309C) = true
  · rw [if_pos h7] at h
    have hc2 : c = 0x309C := by simpa using h7
    subst hc2
    rcases List.mem_cons.1 h with rfl | h2
    · decide
    · rcases List.mem_singleton.1 h2 with rfl
      decide
  rw [if_neg h7] at h
  by_cases h8 : (0xFF01 ≤ c && c ≤ 0xFF5E) = true
  · rw [if_pos h8] at h
    simp only [Bool.and_eq_true, decide_eq_true_eq] at h8
    have hd := List.mem_singleton.1 h
    rw [hd]
    exact ⟨decomp_small (by omega), by omega, fun _ => ccc_small (by omega)⟩
  rw [if_neg h8] at h
  by_cases h9 : (c == 0xFF61) = true
  · rw [if_pos h9] at h
    have hc2 : c = 0xFF61 := by simpa using h9
    subst hc2
    rcases List.mem_singleton.1 h with rfl
    decide
  rw [if_neg h9] at h
  by_cases h10 : (c == 0xFF62) = true
  · rw [if_pos h10] at h
    have hc2 : c = 0xFF62 := by simpa using h10
    subst hc2
    rcases List.mem_singleton.1 h with rfl
    decide
  rw [if_neg h10] at h
  by_cases h11 : (c == 0xFF63) = true
  · rw [if_pos h11] at h
    have hc2 : c = 0xFF63 := by simpa using h11
    subst hc2
    rcases List.mem_singleton.1 h with rfl
    decide
  rw [if_neg h11] at h
  by_cases h12 : (c == 0xFF64) = true
  · rw [if_pos h12] at h
    have hc2 : c = 0xFF64 := by simpa using h12
    subst hc2
    rcases List.mem_singleton.1 h with rfl
    decide
  rw [if_neg h12] at h
  by_cases h13 : (c == 0xFF65) = true
  · rw [if_pos h13] at h
    have hc2 : c = 0xFF65 := by simpa using h13
    subst hc2
    rcases List.mem_singleton.1 h with rfl
    decide
  rw [if_neg h13] at h
  by_cases h14 : (0xFF66 ≤ c && c ≤ 0xFF9D) = true
  · rw [if_pos h14] at h
    simp only [Bool.and_eq_true, decide_eq_true_eq] at h14
    have hd := List.mem_singleton.1 h
    rw [hd]
    have hp := hw_props (c - 0xFF66) (by omega)
    exact ⟨hp.1, hp.2.1, fun _ => hp.2.2⟩
  rw [if_neg h14] at h
  by_cases h15 : (c == 0xFF9E) = true
  · rw [if_pos h15] at h
    have hc2 : c = 0xFF9E := by simpa using h15
    subst hc2
    rcases List.mem_singleton.1 h with rfl
    decide
  rw [if_neg h15] at h
  by_cases h16 : (c == 0xFF9F) = true
  · rw [if_pos h16] at h
    have hc2 : c = 0xFF9F := by simpa using h16
    subst hc2
    rcases List.mem_singleton.1 h with rfl
    decide
  rw [if_neg h16] at h
  rcases List.mem_singleton.1 h with rfl
  refine ⟨?_, by simpa using h1, fun hc => ccc_eq_zero hc⟩
  unfold decomp
  rw [if_neg h1, if_neg h2, if_neg h3, if_neg h4, if_neg h5, if_neg h6,
    if_neg h7, if_neg h8, if_neg h9, if_neg h10, if_neg h11, if_neg h12,
    if_neg h13, if_neg h14, if_neg h15, if_neg h16]

theorem bind_decomp_id {l : Str} (h : ∀ c ∈ l, decomp c = [c]) :
    l.bind decomp = l := by
  induction l with
  | nil => rfl
  | cons c rest ih =>
    simp only [List.cons_bind, h c (List.mem_cons_self _ _),
      ih (fun d hd => h d (List.mem_cons_of_mem _ hd)), List.singleton_append]

theorem composeAux_id : ∀ (l : Str), (∀ c ∈ l, c ≠ 0x3099 ∧ c ≠ 0x309A) →
    ∀ a, composeAux a l = a :: l := by
  intro l
  induction l with
  | nil => intro _ a; rfl
  | cons b rest ih =>
    intro h a
    have hb := h b (List.mem_cons_self _ _)
    have hnone : kanaComposite a b = none := by
      unfold kanaComposite
      rw [if_neg (by simp [hb.1]), if_neg (by simp [hb.2])]
    unfold composeAux
    rw [hnone]
    show a :: composeAux b rest = a :: b :: rest
    rw [ih (fun c hc => h c (List.mem_cons_of_mem _ hc)) b]

theorem composeKana_id {l : Str} (h : ∀ c ∈ l, c ≠ 0x3099 ∧ c ≠ 0x309A) :
    composeKana l = l := by
  cases l with
  | nil => rfl
  | cons a rest =>
    unfold composeKana
    exact composeAux_id rest (fun c hc => h c (List.mem_cons_of_mem _ hc)) a

theorem reorderAux_id : ∀ l : Str, (∀ c ∈ l, ccc c = 0) → reorderAux [] l = l := by
  intro l
  induction l with
  | nil => intro _; rfl
  | cons c rest ih =>
    intro h
    unfold reorderAux
    rw [if_pos (by simp [h c (List.mem_cons_self _ _)]),
      ih (fun d hd => h d (List.mem_cons_of_mem _ hd))]
    rfl

theorem canonicalReorder_id {l : Str} (h : ∀ c ∈ l, ccc c = 0) :
    canonicalReorder l = l :=
  reorderAux_id l h

/-! ## Shape of the normalizer's intermediate stages -/

theorem collapseSpaces_head : ∀ (rest : Str) (d : Nat), ∃ tl,
    collapseSpaces (d :: rest) = (if isPySpace d then 0x20 else d) :: tl := by
  intro rest
  induction rest with
  | nil =>
    intro d
    by_cases hd : isPySpace d
    · exact ⟨[], by simp [collapseSpaces, hd]⟩
    · exact ⟨[], by simp [collapseSpaces, hd]⟩
  | cons e rest2 ih =>
    intro d
    by_cases hd : isPySpace d
    · by_cases he : isPySpace e
      · obtain ⟨tl, htl⟩ := ih e
        refine ⟨tl, ?_⟩
        simp only [collapseSpaces]
        rw [if_pos hd, if_pos he, htl, if_pos he, if_pos hd]
      · refine ⟨collapseSpaces (e :: rest2), ?_⟩
        simp only [collapseSpaces]
        rw [if_pos hd, if_neg he, if_pos hd]
    · refine ⟨collapseSpaces (e :: rest2), ?_⟩
      simp only [collapseSpaces]
      rw [if_neg hd, if_neg hd]

theorem chain'_collapseSpaces : ∀ l : Str,
    (collapseSpaces l).Chain' (fun a b => ¬(isPySpace a = true ∧ isPySpace b = true)) := by
  intro l
  induction l with
  | nil => exact List.chain'_nil
  | cons d rest ih =>
    cases rest with
    | nil =>
      by_cases hd : isPySpace d
      · simp [collapseSpaces, hd]
      · simp [collapseSpaces, hd]
    | cons e rest2 =>
      simp only [collapseSpaces]
      by_cases hd : isPySpace d
      · rw [if_pos hd]
        by_cases he : isPySpace e
        · rw [if_pos he]
          exact ih
        · rw [if_neg he]
          obtain ⟨tl, htl⟩ := collapseSpaces_head rest2 e
          rw [htl] at ih ⊢
          rw [if_neg he] at ih ⊢
          exact List.chain'_cons.2 ⟨fun hab => he hab.2, ih⟩
      · rw [if_neg hd]
        obtain ⟨tl, htl⟩ := collapseSpaces_head rest2 e
        rw [htl] at ih ⊢
        exact List.chain'_cons.2 ⟨fun hab => hd hab.1, ih⟩

theorem collapseSpaces_id : ∀ l : Str,
    (∀ c ∈ l, isPySpace c = true → c = 0x20) →
    l.Chain' (fun a b => ¬(isPySpace a = true ∧ isPySpace b = true)) →
    collapseSpaces l = l := by
  intro l
  induction l with
  | nil => intro _ _; rfl
  | cons d rest ih =>
    intro hsp hch
    cases rest with
    | nil =>
      by_cases hd : isPySpace d
      · simp [collapseSpaces, hd, (hsp d (List.mem_cons_self _ _) hd).symm]
      · simp [collapseSpaces, hd]
    | cons e rest2 =>
      simp only [collapseSpaces]
      rcases List.chain'_cons.1 hch with ⟨hde, hch2⟩
      by_cases hd : isPySpace d
      · rw [if_pos hd]
        have he : ¬ isPySpace e = true := fun he2 => hde ⟨hd, he2⟩
        rw [if_neg he,
          ih (fun c hc => hsp c (List.mem_cons_of_mem _ hc)) hch2,
          hsp d (List.mem_cons_self _ _) hd]
      · rw [if_neg hd,
          ih (fun c hc => hsp c (List.mem_cons_of_mem _ hc)) hch2]

theorem keepJapanese_id : ∀ l : Str,
    (∀ c ∈ l, (isPySpace c = true → c = 0x20) ∧
      (isPySpace c = false → in_japanese_ranges c = true)) →
    keepJapanese l = l := by
  intro l
  induction l with
  | nil => intro _; rfl
  | cons d rest ih =>
    intro h
    unfold keepJapanese
    by_cases hd : isPySpace d
    · rw [if_pos hd, (h d (List.mem_cons_self _ _)).1 hd,
        ih (fun c hc => h c (List.mem_cons_of_mem _ hc))]
    · rw [if_neg hd,
        if_pos ((h d (List.mem_cons_self _ _)).2 (by simpa using hd)),
        ih (fun c hc => h c (List.mem_cons_of_mem _ hc))]

theorem chain'_dropWhile {P : Nat → Nat → Prop} (q : Nat → Bool) :
    ∀ l : Str, l.Chain' P → (l.dropWhile q).Chain' P := by
  intro l
  induction l with
  | nil => intro h; exact h
  | cons c rest ih =>
    intro h
    rw [List.dropWhile_cons]
    split
    · exact ih h.tail
    · exact h

theorem chain'_stripStr {P : Nat → Nat → Prop} (hsymm : ∀ a b, P a b → P b a)
    {l : Str} (h : l.Chain' P) : (stripStr l).Chain' P := by
  unfold stripStr
  have h1 := chain'_dropWhile isPySpace l h
  have h2 : ((l.dropWhile isPySpace).reverse).Chain' P := by
    rw [List.chain'_reverse]
    exact h1.imp (fun a b hab => hsymm a b hab)
  have h3 := chain'_dropWhile isPySpace _ h2
  rw [List.chain'_reverse]
  exact h3.imp (fun a b hab => hsymm a b hab)

theorem dropWhile_head_false {q : Nat → Bool} :
    ∀ {l tl : Str} {c : Nat}, l.dropWhile q = c :: tl → q c = false := by
  intro l
  induction l with
  | nil => intro tl c h; cases h
  | cons d rest ih =>
    intro tl c h
    rw [List.dropWhile_cons] at h
    split at h
    · exact ih h
    · rename_i hq
      injection h with h1 _
      subst h1
      simpa using hq

theorem dropWhile_idem (q : Nat → Bool) (l : Str) :
    (l.dropWhile q).dropWhile q = l.dropWhile q := by
  cases hE : l.dropWhile q with
  | nil => rfl
  | cons c tl =>
    rw [List.dropWhile_cons, if_neg (by simp [dropWhile_head_false hE])]

theorem stripStr_eq_dropWhile_self (l : Str) :
    (stripStr l).dropWhile isPySpace = stripStr l := by
  cases hB : stripStr l with
  | nil => rfl
  | cons c t2 =>
    have hpref : stripStr l <+: l.dropWhile isPySpace := by
      have hsuf := List.dropWhile_suffix (l := (l.dropWhile isPySpace).reverse)
        isPySpace
      have h2 := List.reverse_prefix.2 hsuf
      rw [List.reverse_reverse] at h2
      exact h2
    rw [hB] at hpref
    rcases hpref with ⟨u, hu⟩
    have hq : isPySpace c = false := dropWhile_head_false
      (show l.dropWhile isPySpace = c :: (t2 ++ u) from by rw [← hu]; rfl)
    rw [List.dropWhile_cons, if_neg (by simp [hq])]

theorem stripStr_idem (l : Str) : stripStr (stripStr l) = stripStr l := by
  have h2 : stripStr (stripStr l) =
      (((stripStr l).reverse).dropWhile isPySpace).reverse := by
    show (((stripStr l).dropWhile isPySpace).reverse.dropWhile isPySpace).reverse = _
    rw [stripStr_eq_dropWhile_self]
  rw [h2]
  have h3 : (stripStr l).reverse =
      ((l.dropWhile isPySpace).reverse).dropWhile isPySpace := by
    show ((((l.dropWhile isPySpace).reverse).dropWhile isPySpace).reverse).reverse = _
    rw [List.reverse_reverse]
  rw [h3, dropWhile_idem]
  rfl

/-- C6 counterexample: the normalizer is not idempotent, by either of two
mechanisms.  On か, x, U+3099 the first pass drops the letter x and outputs
か followed by the bare voiced mark; the second pass NFKC-composes the
now-adjacent pair into が.  On U+302B, x, U+302A (two ideographic tone
marks, combining classes 228 and 218, blocked by the letter x) the first
pass drops the x; the second pass canonically reorders the now-adjacent
marks.  In both cases normalizing twice differs from normalizing once. -/
theorem c6_counterexample :
    (filter_non_japanese nfkcModel
        (filter_non_japanese nfkcModel [0x304B, 0x78, 0x3099]) ≠
      filter_non_japanese nfkcModel [0x304B, 0x78, 0x3099])
    ∧ (filter_non_japanese nfkcModel
        (filter_non_japanese nfkcModel [0x302B, 0x78, 0x302A]) ≠
      filter_non_japanese nfkcModel [0x302B, 0x78, 0x302A]) := by decide

/-- C6 as amended: the normalizer is idempotent on every input containing
none of the twelve mark characters of `soundMarks` — the combining kana
sound marks U+3099/U+309A, their spacing and halfwidth forms
U+309B/U+309C/U+FF9E/U+FF9F, and the ideographic/Hangul tone marks
U+302A–U+302F.  Without these, the NFKC stage never produces a combining
mark inside the permitted ranges, every surviving character is NFKC-stable
and a starter (so neither composition nor canonical reordering can act on a
second pass), and the whitespace discipline of the output is already
normal, so a second pass changes nothing. -/
theorem c6_idempotent_without_soundmarks (s : Str)
    (hm : ∀ c ∈ s, c ∉ soundMarks) :
    filter_non_japanese nfkcModel (filter_non_japanese nfkcModel s) =
      filter_non_japanese nfkcModel s := by
  by_cases hs : s.isEmpty
  · have h0 : filter_non_japanese nfkcModel s = [] := by
      unfold filter_non_japanese
      rw [if_pos hs]
    rw [h0]
    rfl
  · set t := filter_non_japanese nfkcModel s with ht
    have hLprops : ∀ c ∈ s.bind decomp, decomp c = [c] ∧ c ≠ 0x3000 ∧
        ccc c = 0 := by
      intro c hc
      rcases List.mem_bind.1 hc with ⟨a, ha, hd⟩
      have hp := decomp_props a c hd
      exact ⟨hp.1, hp.2.1, hp.2.2 (hm a ha)⟩
    have hnfkc : nfkcModel s = s.bind decomp := by
      unfold nfkcModel
      rw [canonicalReorder_id (fun c hc => (hLprops c hc).2.2)]
      exact composeKana_id
        (fun c hc => ne_kana_marks_of_ccc_zero (hLprops c hc).2.2)
    have htform : t = stripStr (collapseSpaces (keepJapanese (s.bind decomp))) := by
      rw [ht]
      unfold filter_non_japanese
      rw [if_neg hs, hnfkc,
        map_id_of_mem (fun c hc => by
          rw [if_neg (by simpa using (hLprops c hc).2.1)])]
    have htchar : ∀ c ∈ t, c = 0x20 ∨
        (c ∈ s.bind decomp ∧ in_japanese_ranges c = true ∧ isPySpace c = false) := by
      intro c hc
      rw [htform] at hc
      have h1 := mem_stripStr hc
      rcases mem_collapseSpaces h1 with h2 | h2
      · exact Or.inl h2
      · rcases mem_keepJapanese h2 with h3 | h3
        · exact Or.inl h3
        · exact Or.inr h3
    have hstable : ∀ c ∈ t, decomp c = [c] := by
      intro c hc
      rcases htchar c hc with rfl | h2
      · decide
      · exact (hLprops c h2.1).1
    have hccc : ∀ c ∈ t, ccc c = 0 := by
      intro c hc
      rcases htchar c hc with rfl | h2
      · decide
      · exact (hLprops c h2.1).2.2
    have h3000 : ∀ c ∈ t, c ≠ 0x3000 := by
      intro c hc
      rcases htchar c hc with rfl | h2
      · decide
      · exact (hLprops c h2.1).2.1
    have hsp20 : ∀ c ∈ t, isPySpace c = true → c = 0x20 := by
      intro c hc hcsp
      rcases htchar c hc with rfl | h2
      · rfl
      · rw [h2.2.2] at hcsp
        cases hcsp
    have hranges : ∀ c ∈ t, isPySpace c = false → in_japanese_ranges c = true := by
      intro c hc hcsp
      rcases htchar c hc with rfl | h2
      · exact absurd hcsp (by decide)
      · exact h2.2.1
    have hchain : t.Chain' (fun a b => ¬(isPySpace a = true ∧ isPySpace b = true)) := by
      rw [htform]
      exact chain'_stripStr (fun a b hab h2 => hab ⟨h2.2, h2.1⟩)
        (chain'_collapseSpaces _)
    show filter_non_japanese nfkcModel t = t
    by_cases hte : t.isEmpty
    · have h0 : filter_non_japanese nfkcModel t = [] := by
        unfold filter_non_japanese
        rw [if_pos hte]
      rw [h0]
      exact (by simpa using hte : t = []).symm
    · unfold filter_non_japanese
      rw [if_neg hte]
      have hnf : nfkcModel t = t := by
        unfold nfkcModel
        rw [bind_decomp_id hstable, canonicalReorder_id hccc]
        exact composeKana_id (fun c hc => ne_kana_marks_of_ccc_zero (hccc c hc))
      rw [hnf,
        map_id_of_mem (fun c hc => by rw [if_neg (by simpa using h3000 c hc)]),
        keepJapanese_id t (fun c hc => ⟨hsp20 c hc, hranges c hc⟩),
        collapseSpaces_id t hsp20 hchain, htform]
      exact stripStr_idem _

/-- Concrete instantiation of `c6_idempotent_without_soundmarks`: the input
カ, タ, a, space, か contains no sound mark, and normalizing it twice equals
normalizing it once. -/
theorem c6_witness :
    filter_non_japanese nfkcModel (filter_non_japanese nfkcModel
        [0x30AB, 0x30BF, 0x61, 0x20, 0x304B]) =
      filter_non_japanese nfkcModel [0x30AB, 0x30BF, 0x61, 0x20, 0x304B] :=
  c6_idempotent_without_soundmarks [0x30AB, 0x30BF, 0x61, 0x20, 0x304B] (by decide)

end JptextExtract
